import Mathlib

set_option maxRecDepth 100000

/-!
Verification development for the GsPack4 Scw4 script tools
(`GsPack4_Scw4_extract.py` and `GsPack4_Scw4_write.py`).

The two tools round-trip an "Scw4.x" binary script container and an editable
text document.  We embed the container codec shallowly:

* a byte string is a `List Nat` (each element intended `< 256`, as produced by
  Python `bytes`); file reads and slices clamp exactly like Python
  (`List.drop`/`List.take`);
* the 32-bit little-endian header fields the source reads with
  `struct.unpack('<i', ...)` are modelled as `Nat`s via `readLE32`; the source
  reads them signed, and every theorem below concerns the range where the two
  agree (all concrete inputs and all validity hypotheses keep the fields below
  `2^31`);
* decoded text is a `List Char`; the external Python `cp932` codec is modelled
  on its single-byte ASCII fragment (bytes below `0x80` coincide with ASCII in
  cp932): other bytes decode to the replacement character U+FFFD under
  `errors='replace'` and are dropped under `errors='ignore'`, and characters
  outside the fragment encode to `'?'` under `errors='replace'`.  All claims
  settled here depend only on this fragment;
* fallible code paths (Python exceptions such as `struct.error`, `IndexError`
  or `ValueError`, and the explicit `return` failures) return `Option`s.
-/

/-! ## Bytes, little-endian words, Python-style slicing -/

/-- One byte of a Python `bytes` value, read with a default of `0` and
normalised below `256`. -/
def readByte (bs : List Nat) (i : Nat) : Nat := bs.getD i 0 % 256

/-- `struct.unpack('<I', ...)`-style little-endian 32-bit read at offset
`off`. -/
def readLE32 (bs : List Nat) (off : Nat) : Nat :=
  readByte bs off + 256 * readByte bs (off + 1) + 65536 * readByte bs (off + 2) +
    16777216 * readByte bs (off + 3)

/-- Little-endian serialisation of a 32-bit value, as `struct.pack` emits it. -/
def le32 (v : Nat) : List Nat := [v % 256, v / 256 % 256, v / 65536 % 256, v / 16777216 % 256]

/-- `f.seek(pos); f.read(len)` / `bytes[pos:pos+len]`: both clamp at the end of
the data, exactly like `List.drop`/`List.take`. -/
def readAt (bs : List Nat) (pos len : Nat) : List Nat := (bs.drop pos).take len

/-- Overwrite one list position (`bytearray` item assignment); out-of-range
writes are dropped, which the sources never rely on (they bound-check first). -/
def writeLE32 (bs : List Nat) (off v : Nat) : List Nat :=
  ((((bs.set off (v % 256)).set (off + 1) (v / 256 % 256)).set
      (off + 2) (v / 65536 % 256)).set (off + 3) (v / 16777216 % 256))

/-- All elements are genuine byte values. -/
def IsBytes (bs : List Nat) : Prop := ∀ b ∈ bs, b < 256

instance : DecidablePred IsBytes := fun bs => List.decidableBAll _ bs

/-! ## Generic strip/right-strip helpers (Python `str.strip`, `bytes.rstrip`) -/

/-- Remove trailing elements satisfying `p` (Python `rstrip`). -/
def rstripBy {α : Type} (p : α → Bool) (l : List α) : List α :=
  (l.reverse.dropWhile p).reverse

/-- `bytes.rstrip(b'\x00')`. -/
def rstripNul (bs : List Nat) : List Nat := rstripBy (fun b => b == 0) bs

/-- The ASCII whitespace stripped by Python `str.strip()` (the Unicode
whitespace beyond ASCII never occurs in this development). -/
def isSpaceChar (c : Char) : Bool :=
  c == ' ' || c == '\t' || c == '\n' || c == '\r' || c == Char.ofNat 11 || c == Char.ofNat 12

/-- Python `str.strip()`. -/
def stripChars (l : List Char) : List Char :=
  rstripBy isSpaceChar (l.dropWhile isSpaceChar)

/-! ## The modelled cp932 codec fragment -/

/-- Single-byte cp932 decoding on the ASCII fragment; bytes outside the
fragment stand for undecodable input and become U+FFFD, the substitute Python's
`errors='replace'` produces. -/
def cp932DecodeByte (b : Nat) : Char :=
  if b < 128 then Char.ofNat b else Char.ofNat 0xFFFD

/-- Model of `bytes.decode('cp932', errors='replace')`: total by construction,
because the `replace` error handler substitutes instead of raising. -/
def decodeCp932Replace (bs : List Nat) : List Char := bs.map cp932DecodeByte

/-- Model of `bytes.decode('cp932', errors='ignore')` (used for the header
description): undecodable bytes are dropped. -/
def decodeCp932Ignore (bs : List Nat) : List Char :=
  (bs.filter (fun b => b < 128)).map Char.ofNat

/-- Model of `str.encode('cp932')` per character: defined on the ASCII
fragment, `none` on characters outside it (Python raises
`UnicodeEncodeError`). -/
def cp932EncodeChar (c : Char) : Option (List Nat) :=
  if c.toNat < 128 then some [c.toNat] else none

/-- Model of `str.encode('cp932', errors='replace')`: unencodable characters
become `b'?'`. -/
def encodeCp932Replace (cs : List Char) : List Nat :=
  cs.flatMap (fun c => (cp932EncodeChar c).getD [0x3F])

/-! ## Decimal integers (Python `f"{n}"` rendering and `int(...)` parsing) -/

/-- Fuel-driven decimal rendering of a natural number (structural recursion so
the kernel can evaluate it). -/
def natToCharsGo : Nat → Nat → List Char → List Char
  | 0, _, acc => acc
  | fuel + 1, n, acc =>
    if n = 0 then acc
    else natToCharsGo fuel (n / 10) (Char.ofNat (48 + n % 10) :: acc)

/-- Decimal rendering of a natural number, as a Python f-string formats a
non-negative `int`. -/
def natToChars (n : Nat) : List Char :=
  if n = 0 then ['0'] else natToCharsGo n n []

/-- Accumulate a digit string's value. -/
def digitsToNat (cs : List Char) : Nat :=
  cs.foldl (fun a c => a * 10 + (c.toNat - 48)) 0

/-- Model of Python `int(str)` on the inputs this development produces: an
optional sign followed by one or more decimal digits; anything else is a
`ValueError` (`none`). -/
def parseInt (cs : List Char) : Option Int :=
  match cs with
  | [] => none
  | c :: rest =>
    if c = '-' then
      if rest ≠ [] ∧ rest.all Char.isDigit then some (-(digitsToNat rest : Int)) else none
    else if c = '+' then
      if rest ≠ [] ∧ rest.all Char.isDigit then some (digitsToNat rest : Int) else none
    else if (c :: rest).all Char.isDigit then some (digitsToNat (c :: rest) : Int) else none

/-! ## Text-document parser (`parse_txt` in `GsPack4_Scw4_write.py`) -/

/-- Split a list at the first occurrence of `sep`:
Python `line.split(sep, 1)` when `sep` occurs. -/
def splitOnceAt (sep : Char) : List Char → List Char × List Char
  | [] => ([], [])
  | c :: rest =>
    if c = sep then ([], rest)
    else
      let p := splitOnceAt sep rest
      (c :: p.1, p.2)

/-- Everything after the first occurrence of `sep`
(Python `line.split(sep, 1)[1]`, total because callers guard on presence). -/
def afterFirst (sep : Char) : List Char → List Char
  | [] => []
  | c :: rest => if c = sep then rest else afterFirst sep rest

/-- Whether a character occurs (Python `sep in line`). -/
def hasChar (sep : Char) (l : List Char) : Bool := l.any (fun c => c == sep)

/-- A Python `dict` of strings, as an association list in insertion order;
assigning to an existing key overwrites it in place. -/
abbrev Dict : Type := List (List Char × List Char)

/-- `d[k] = v`. -/
def dictSet : Dict → List Char → List Char → Dict
  | [], k, v => [(k, v)]
  | (k', v') :: rest, k, v =>
    if k' = k then (k, v) :: rest else (k', v') :: dictSet rest k v

/-- `d.get(k)` (as `Option`). -/
def dictGet? (d : Dict) (k : List Char) : Option (List Char) :=
  (d.find? (fun p => p.1 = k)).map (·.2)

/-- The two recognised section kinds of the text document. -/
inductive Sect : Type
  | header : Sect
  | index : Sect
deriving DecidableEq

/-- The mutable locals of `parse_txt`: `header`, `strings`, `current_section`,
`current_index`. -/
structure ParseState : Type where
  header : Dict
  strings : List (List Char)
  currentSection : Option Sect
  currentIndex : Option Int
deriving DecidableEq

/-- `parse_txt`'s starting state. -/
def initParseState : ParseState := ⟨[], [], none, none⟩

/-- Python `strings[i] += '\n' + line` versus first assignment: an empty
accumulated entry is falsy, so the first line replaces it. -/
def strAccum (cur line : List Char) : List Char :=
  if cur = [] then line else cur ++ '\n' :: line

/-- The body of `parse_txt`'s loop on the stripped line.  `none` is the
`return None, None` ordering failure, or a `ValueError` escaping from
`int(...)`. -/
def parseTxtLine (st : ParseState) (line : List Char) : Option ParseState :=
  if line = [] then some st
  else if line.head? = some '[' then
    if line = "[Header]".data then some { st with currentSection := some Sect.header }
    else if "[Index=".data.isPrefixOf line then
      match parseInt (rstripBy (fun c => c == ']') (afterFirst '=' line)) with
      | none => none
      | some n =>
        if n ≠ (st.strings.length + 1 : Int) then none
        else
          some { st with currentSection := some Sect.index, currentIndex := some n,
                         strings := st.strings ++ [[]] }
    else some { st with currentSection := none }
  else
    match st.currentSection with
    | some Sect.header =>
      if hasChar '=' line then
        let p := splitOnceAt '=' line
        some { st with header := dictSet st.header (stripChars p.1) (stripChars p.2) }
      else some st
    | some Sect.index =>
      match st.currentIndex with
      | some n =>
        if 1 ≤ n ∧ n ≤ (st.strings.length : Int) then
          let i := (n - 1).toNat
          some { st with strings := st.strings.set i (strAccum (st.strings.getD i []) line) }
        else some st
      | none => some st
    | none => some st

/-- One iteration of `parse_txt`'s `for line in f` loop:
`line = line.strip()` and then the branch on its shape. -/
def parseTxtStep (st : ParseState) (raw : List Char) : Option ParseState :=
  parseTxtLine st (stripChars raw)

/-- `parse_txt`, over the file's lines (the line iteration of the text file,
each line without its terminating newline). -/
def parse_txt (lines : List (List Char)) : Option (Dict × List (List Char)) :=
  (lines.foldlM parseTxtStep initParseState).map fun st => (st.header, st.strings)

/-! ## Extractor (`extract_scw_file` in `GsPack4_Scw4_extract.py`) -/

/-- `FileHeadLen = 0x1C4`. -/
def FileHeadLen : Nat := 0x1C4

/-- `Pad2Len = 128`. -/
def Pad2Len : Nat := 128

/-- The bytes of the `'Scw4.x'` magic tag. -/
def magicBytes : List Nat := [0x53, 0x63, 0x77, 0x34, 0x2E, 0x78]

/-- `data.rstrip(b'\x00').decode('cp932', errors='replace')` wrapped in the
extractor's `try`: `errors='replace'` never raises, hence `some`. -/
def tryDecodeStringData (data : List Nat) : Option (List Char) :=
  some (decodeCp932Replace (rstripNul data))

/-- The extractor's per-slice string decoding with its
`except UnicodeDecodeError` fallback. -/
def decodeStringData (data : List Nat) : List Char :=
  match tryDecodeStringData data with
  | some s => s
  | none => "<DECODE_ERROR>".data

/-- What one extraction produces: the header fields echoed into the text
document, and the decoded string table. -/
structure ExtractedDoc : Type where
  stringCount : Nat
  textCount : Nat
  description : List Char
  strings : List (List Char)
deriving DecidableEq

/-- The extractor's string loop (`for i in range(string_count)`), recursing on
the number of remaining iterations; the early `[]` is the `break` on an
out-of-range index entry. -/
def extractStringsGo (bs index_data : List Nat) (command_count section_start : Nat) :
    Nat → Nat → List (List Char)
  | _, 0 => []
  | i, r + 1 =>
    let idx_offset := (command_count + i) * 8
    if idx_offset + 8 > index_data.length then []
    else
      let start := readLE32 index_data idx_offset
      let length := readLE32 index_data (idx_offset + 4)
      decodeStringData (readAt bs (section_start + start) length) ::
        extractStringsGo bs index_data command_count section_start (i + 1) r

/-- `extract_scw_file` on the container's bytes; `none` covers every path that
produces no text document (bad magic, `TEXT_COUNT == 0`, incomplete index
data). -/
def extract_scw_file (bs : List Nat) : Option ExtractedDoc :=
  if rstripNul (bs.take 16) ≠ magicBytes then none
  else
    let command_count := readLE32 bs 0x24
    let string_count := readLE32 bs 0x28
    let addon_count := readLE32 bs 0x2C
    let command_size := readLE32 bs 0x30
    let text_count := readLE32 bs 0x40
    let description :=
      stripChars (decodeCp932Ignore ((readAt bs 0xC4 0x100).takeWhile (fun b => b ≠ 0)))
    if text_count = 0 then none
    else
      let index_size := (command_count + string_count + addon_count) * 8
      let index_data := readAt bs FileHeadLen index_size
      if index_data.length ≠ index_size then none
      else
        let string_section_start := FileHeadLen + index_size + command_size
        some ⟨string_count, text_count, description,
              extractStringsGo bs index_data command_count string_section_start 0 string_count⟩

/-- The index-table size `8 * (commandCount + stringCount + addonCount)`
declared by a container's header. -/
def indexSizeOf (bs : List Nat) : Nat :=
  (readLE32 bs 0x24 + readLE32 bs 0x28 + readLE32 bs 0x2C) * 8

/-! ## Text-document rendering (the extractor's output writes) -/

/-- The rendered sections `f"[Index={idx}]\n{s}\n\n"`, numbered from `n`. -/
def renderSections : Nat → List (List Char) → List Char
  | _, [] => []
  | n, s :: rest =>
    "[Index=".data ++ natToChars n ++ "]\n".data ++ s ++ "\n\n".data ++
      renderSections (n + 1) rest

/-- The full text document the extractor writes (header block, then the
indexed sections starting at 1). -/
def renderDoc (d : ExtractedDoc) : List Char :=
  "[Header]\nSTRING_COUNT = ".data ++ natToChars d.stringCount ++
    "\nTEXT_COUNT = ".data ++ natToChars d.textCount ++
    "\nFILE_DESCRIPTION = ".data ++ d.description ++ "\n\n".data ++
    renderSections 1 d.strings

/-- Text split into lines at `'\n'`.  This models how `for line in f`
tokenises the document (modulo the newline terminators `str.strip` discards
anyway) only for text free of bare `'\r'`: the writer reopens the document in
universal-newlines mode, where a lone CR also ends a line.  The round-trip
theorem therefore requires CR-free descriptions and strings, keeping the
rendered document inside the fragment where the two tokenisations agree. -/
def splitOnNL : List Char → List (List Char)
  | [] => [[]]
  | c :: rest =>
    if c = '\n' then [] :: splitOnNL rest
    else (c :: (splitOnNL rest).headD []) :: (splitOnNL rest).tail

/-- Join lines with `'\n'`: the left inverse of `splitOnNL`. -/
def joinNL : List (List Char) → List Char
  | [] => []
  | [l] => l
  | l :: l2 :: ls => l ++ '\n' :: joinNL (l2 :: ls)

/-! ## Writer (`process_scw` in `GsPack4_Scw4_write.py`) -/

/-- Region slicing of the content area (write tool, lines 76-86): pure Python
slices, which clamp; there is no size check. -/
def splitRegions (content : List Nat) (index_size cmd_size str_size addon_size : Nat) :
    List Nat × List Nat × List Nat × List Nat :=
  let index_end := index_size
  let cmd_end := index_end + cmd_size
  let str_end := cmd_end + str_size
  let addon_end := str_end + addon_size
  (content.take index_end,
   (content.take cmd_end).drop index_end,
   (content.take str_end).drop cmd_end,
   (content.take addon_end).drop str_end)

/-- `int(header_txt.get(key, -1))`: a missing key yields `-1`, an unparsable
value is a `ValueError` (`none`). -/
def declaredInt (d : Dict) (k : List Char) : Option Int :=
  match dictGet? d k with
  | none => some (-1)
  | some v => parseInt v

/-- The dictionary key `STRING_COUNT`. -/
def strCountKey : List Char := "STRING_COUNT".data

/-- The dictionary key `TEXT_COUNT`. -/
def textCountKey : List Char := "TEXT_COUNT".data

/-- One re-encoded string: `s.encode('cp932', ...) + b'\x00'` (the strict
attempt and the `errors='replace'` retry produce the same bytes in the
modelled fragment). -/
def encStr (s : List Char) : List Nat := encodeCp932Replace s ++ [0]

/-- The index-patching loop (write tool, lines 121-133): iterates
`i in range(str_count)`, keeping `current_offset`; `none` models `struct.error`
from `unpack_from`/`pack_into` on a too-short buffer or an out-of-range `<I`
value, and `IndexError` on `new_str_list[i]`. -/
def patchIndexGo (lens : List Nat) (str_index_start : Nat) :
    List Nat → Nat → Nat → Nat → Option (List Nat)
  | idx, _, _, 0 => some idx
  | idx, i, off, r + 1 =>
    if str_index_start + i * 8 + 8 > idx.length then none
    else
      match lens.get? i with
      | none => none
      | some len =>
        if off ≥ 2 ^ 32 ∨ len ≥ 2 ^ 32 then none
        else
          patchIndexGo lens str_index_start
            (writeLE32 (writeLE32 idx (str_index_start + i * 8) off)
              (str_index_start + i * 8 + 4) len)
            (i + 1) (off + len) r

/-- Repack of the header `struct.pack('<16s13i128s256s', ...)`. -/
def packHeader (magic : List Nat) (f0 f1 f2 f3 f4 f5 f6 f7 f8 f9 f10 f11 f12 : Nat)
    (pad2 desc : List Nat) : List Nat :=
  magic ++ le32 f0 ++ le32 f1 ++ le32 f2 ++ le32 f3 ++ le32 f4 ++ le32 f5 ++ le32 f6 ++
    le32 f7 ++ le32 f8 ++ le32 f9 ++ le32 f10 ++ le32 f11 ++ le32 f12 ++ pad2 ++ desc

/-- The four regions the writer slices out of the content area, as named
projections (the writer computes them inline; `indexSizeOf bs` is the
`index_size` it computes from the same header fields). -/
def indexRegionOf (bs : List Nat) : List Nat :=
  (splitRegions (readAt bs FileHeadLen (readLE32 bs 0x18)) (indexSizeOf bs)
    (readLE32 bs 0x30) (readLE32 bs 0x34) (readLE32 bs 0x38)).1

/-- The command region slice (`content[index_end:cmd_end]`). -/
def cmdRegionOf (bs : List Nat) : List Nat :=
  (splitRegions (readAt bs FileHeadLen (readLE32 bs 0x18)) (indexSizeOf bs)
    (readLE32 bs 0x30) (readLE32 bs 0x34) (readLE32 bs 0x38)).2.1

/-- The string region slice (`content[cmd_end:str_end]`, computed but not
reused by the writer). -/
def strRegionOf (bs : List Nat) : List Nat :=
  (splitRegions (readAt bs FileHeadLen (readLE32 bs 0x18)) (indexSizeOf bs)
    (readLE32 bs 0x30) (readLE32 bs 0x34) (readLE32 bs 0x38)).2.2.1

/-- The addon region slice (`content[str_end:addon_end]`). -/
def addonRegionOf (bs : List Nat) : List Nat :=
  (splitRegions (readAt bs FileHeadLen (readLE32 bs 0x18)) (indexSizeOf bs)
    (readLE32 bs 0x30) (readLE32 bs 0x34) (readLE32 bs 0x38)).2.2.2

/-- `process_scw` on the original container bytes and the text document's
lines.  The result is the rebuilt container written to the output path;
`none` is `return False` (no output file written), whether from an explicit
validation failure or from an exception caught by the surrounding `try`. -/
def process_scw (bs : List Nat) (txtLines : List (List Char)) : Option (List Nat) :=
  if bs.length < FileHeadLen then none
  else
    match parse_txt txtLines with
    | none => none
    | some (header_txt, new_strings) =>
      if header_txt = [] ∨ new_strings = [] then none
      else
        match declaredInt header_txt strCountKey, declaredInt header_txt textCountKey with
        | some str_count_txt, some text_count_txt =>
          if str_count_txt ≠ (readLE32 bs 0x28 : Int) ∨
              text_count_txt ≠ (readLE32 bs 0x40 : Int) then none
          else
            match patchIndexGo ((new_strings.map encStr).map List.length)
                (readLE32 bs 0x24 * 8) (indexRegionOf bs) 0 0 (readLE32 bs 0x28) with
            | none => none
            | some new_index =>
              if (new_index ++ cmdRegionOf bs ++ (new_strings.map encStr).flatten ++
                    addonRegionOf bs).length ≥ 2 ^ 31 ∨
                  ((new_strings.map encStr).flatten).length ≥ 2 ^ 31 then none
              else
                some (packHeader (bs.take 16) (readLE32 bs 0x10) (readLE32 bs 0x14)
                  (new_index ++ cmdRegionOf bs ++ (new_strings.map encStr).flatten ++
                    addonRegionOf bs).length
                  (readLE32 bs 0x1C) (readLE32 bs 0x20) (readLE32 bs 0x24)
                  (readLE32 bs 0x28) (readLE32 bs 0x2C) (readLE32 bs 0x30)
                  ((new_strings.map encStr).flatten).length (readLE32 bs 0x38)
                  (readLE32 bs 0x3C) (readLE32 bs 0x40)
                  (readAt bs 0x44 Pad2Len) (readAt bs 0xC4 0x100) ++
                  (new_index ++ cmdRegionOf bs ++ (new_strings.map encStr).flatten ++
                    addonRegionOf bs))
        | _, _ => none

/-- One full round trip on string content: decode the container, feed the
unmodified rendered text document to the writer, and decode the rebuilt
container again. -/
def roundTripStrings (bs : List Nat) : Option (List (List Char)) := do
  let doc ← extract_scw_file bs
  let out ← process_scw bs (splitOnNL (renderDoc doc))
  let doc2 ← extract_scw_file out
  pure doc2.strings

/-! ## Validity predicates and concrete containers -/

/-- The container's declared regions all fit: the content region is really
present in the file and the four region sizes fit inside it.  (The spec calls
a violation `RegionOverflowError`; the code never checks this.) -/
def RegionComplete (bs : List Nat) : Prop :=
  FileHeadLen + readLE32 bs 0x18 ≤ bs.length ∧
    indexSizeOf bs + readLE32 bs 0x30 + readLE32 bs 0x34 + readLE32 bs 0x38 ≤ readLE32 bs 0x18

instance : DecidablePred RegionComplete := fun bs => by unfold RegionComplete; infer_instance

/-- A text-document line that survives the parser's normalisation untouched:
non-empty, free of leading/trailing whitespace, and not a section delimiter. -/
def GoodLine (l : List Char) : Prop :=
  l ≠ [] ∧ stripChars l = l ∧ l.head? ≠ some '['

instance : DecidablePred GoodLine := fun l => by unfold GoodLine; infer_instance

/-- String content the text-document codec transports losslessly: ASCII in the
modelled cp932 fragment, no carriage return (the text files are written and
re-read with newline translation), no trailing NUL (stripped with the
terminator on re-extraction), and every line of it a `GoodLine` (a blank,
padded or `[`-led line is altered by the parser's normalisation). -/
def RoundSafeString (s : List Char) : Prop :=
  (∀ c ∈ s, c.toNat < 128 ∧ c ≠ '\r') ∧ s.getLast? ≠ some (Char.ofNat 0) ∧
    (s = [] ∨ ∀ l ∈ splitOnNL s, GoodLine l)

instance : DecidablePred RoundSafeString := fun s => by unfold RoundSafeString; infer_instance

/-- Byte length of the rebuilt string region for the given string table. -/
def rebuiltStrLen (ss : List (List Char)) : Nat :=
  (ss.map (fun s => (encStr s).length)).sum

/-- The rebuilt content region stays below `2^31`, so the writer's two
`struct.pack('<i', ...)` calls on the patched header fields succeed. -/
def RebuildFits (bs : List Nat) (ss : List (List Char)) : Prop :=
  indexSizeOf bs + readLE32 bs 0x30 + rebuiltStrLen ss + readLE32 bs 0x38 < 2 ^ 31

instance : DecidablePred (RebuildFits bs) := fun ss => by unfold RebuildFits; infer_instance

/-- A concrete header for test containers: zero versions/padding/description,
the given content length, counts, sizes and text count. -/
def mkScwHeader (content_len cc sc ac cmd_size str_size addon_size tc : Nat) : List Nat :=
  magicBytes ++ List.replicate 10 0 ++
    le32 0 ++ le32 0 ++ le32 content_len ++ le32 0 ++ le32 0 ++
    le32 cc ++ le32 sc ++ le32 ac ++ le32 cmd_size ++ le32 str_size ++ le32 addon_size ++
    le32 0 ++ le32 tc ++ List.replicate Pad2Len 0 ++ List.replicate 0x100 0

/-- The byte encoding of an ASCII string literal. -/
def asciiBytes (s : String) : List Nat := s.data.map Char.toNat

/-- A valid container holding the single string `"a\n\nb"` — string content
with an embedded blank line. -/
def cexBlankLine : List Nat :=
  mkScwHeader 13 0 1 0 0 5 0 1 ++ (le32 0 ++ le32 5) ++ (asciiBytes "a\n\nb" ++ [0])

/-- The spec's decoding scenario: `stringCount = 2`, entries `[(0,6),(6,6)]`
over the string region `"AB\0\0\0\0CD\0\0\0\0"`. -/
def cexScenario : List Nat :=
  mkScwHeader 28 0 2 0 0 12 0 1 ++ (le32 0 ++ le32 6 ++ le32 6 ++ le32 6) ++
    (asciiBytes "AB" ++ [0, 0, 0, 0] ++ asciiBytes "CD" ++ [0, 0, 0, 0])

/-- A container whose header declares `stringSize = 100` although only 5
content bytes follow the index table: the declared region sizes overflow the
available content bytes. -/
def cexOverflow : List Nat :=
  mkScwHeader 13 0 1 0 0 100 0 1 ++ (le32 0 ++ le32 5) ++ (asciiBytes "ab" ++ [0, 0, 0])

/-- A well-formed one-string text document for `cexOverflow`. -/
def docOverflow : List (List Char) :=
  splitOnNL "[Header]\nSTRING_COUNT = 1\nTEXT_COUNT = 1\nFILE_DESCRIPTION = \n\n[Index=1]\nab\n\n".data

/-- The spec's count-mismatch scenario document: declares `STRING_COUNT = 2`
but contains only `[Index=1]`. -/
def docScenario5 : List (List Char) :=
  splitOnNL "[Header]\nSTRING_COUNT = 2\nTEXT_COUNT = 1\nFILE_DESCRIPTION = \n\n[Index=1]\nhi\n\n".data

/-- A container with a valid magic and `stringCount = 5` but no content bytes
at all: the index table is truncated. -/
def cexTrunc : List Nat := mkScwHeader 100 0 5 0 0 0 0 1

/-- The extraction result of `cexScenario`. -/
def cexScenarioDoc : ExtractedDoc := ⟨2, 1, [], ["AB".data, "CD".data]⟩

/-- The parsed header dictionary of `docScenario5`. -/
def doc5Dict : Dict :=
  [("STRING_COUNT".data, "2".data), ("TEXT_COUNT".data, "1".data),
   ("FILE_DESCRIPTION".data, [])]

/-- The running sum of the first `j` entry lengths. -/
def sumTo (lens : List Nat) (j : Nat) : Nat := (lens.take j).sum

/-- The text-document lines rendered from the C8 scenario container. -/
def scenarioLines : List (List Char) := splitOnNL (renderDoc cexScenarioDoc)

/-- The container the writer rebuilds from the scenario container and its own
rendered document. -/
def scenarioOut : List Nat := (process_scw cexScenario scenarioLines).getD []

/-- The header dictionary parsed back from the rendered scenario document. -/
def scenarioDict : Dict := ((parse_txt scenarioLines).getD ([], [])).1

/-- The document the extractor produces from the scenario container. -/
def scenarioDoc : ExtractedDoc := (extract_scw_file cexScenario).getD ⟨0, 0, [], []⟩

/-- The strings parsed back from the rendered scenario document. -/
def scenarioStrings : List (List Char) := ((parse_txt scenarioLines).getD ([], [])).2

/-! ## Byte-level lemmas -/

theorem readByte_lt (bs : List Nat) (i : Nat) : readByte bs i < 256 :=
  Nat.mod_lt _ (by norm_num)

theorem readLE32_lt (bs : List Nat) (off : Nat) : readLE32 bs off < 2 ^ 32 := by
  have h0 := readByte_lt bs off
  have h1 := readByte_lt bs (off + 1)
  have h2 := readByte_lt bs (off + 2)
  have h3 := readByte_lt bs (off + 3)
  unfold readLE32
  omega

theorem getD_append_left {a b : List Nat} {i : Nat} (d : Nat) (h : i < a.length) :
    (a ++ b).getD i d = a.getD i d := by
  rw [List.getD_eq_getElem?_getD, List.getD_eq_getElem?_getD, List.getElem?_append, if_pos h]

theorem getD_append_right (a b : List Nat) (i : Nat) (d : Nat) :
    (a ++ b).getD (a.length + i) d = b.getD i d := by
  rw [List.getD_eq_getElem?_getD, List.getD_eq_getElem?_getD,
    List.getElem?_append_right (Nat.le_add_right a.length i)]
  simp

theorem readByte_append_left {a b : List Nat} {i : Nat} (h : i < a.length) :
    readByte (a ++ b) i = readByte a i := by
  unfold readByte; rw [getD_append_left _ h]

theorem readByte_append_right (a b : List Nat) (i : Nat) :
    readByte (a ++ b) (a.length + i) = readByte b i := by
  unfold readByte; rw [getD_append_right]

theorem readLE32_append_left {a b : List Nat} {i : Nat} (h : i + 4 ≤ a.length) :
    readLE32 (a ++ b) i = readLE32 a i := by
  unfold readLE32
  rw [readByte_append_left (by omega), readByte_append_left (by omega),
    readByte_append_left (by omega), readByte_append_left (by omega)]

theorem readLE32_append_right (a b : List Nat) (i : Nat) :
    readLE32 (a ++ b) (a.length + i) = readLE32 b i := by
  unfold readLE32
  have e1 : a.length + i + 1 = a.length + (i + 1) := by omega
  have e2 : a.length + i + 2 = a.length + (i + 2) := by omega
  have e3 : a.length + i + 3 = a.length + (i + 3) := by omega
  rw [e1, e2, e3, readByte_append_right, readByte_append_right, readByte_append_right,
    readByte_append_right]

theorem le32_length (v : Nat) : (le32 v).length = 4 := rfl

theorem readLE32_le32_cons (v : Nat) (rest : List Nat) (h : v < 2 ^ 32) :
    readLE32 (le32 v ++ rest) 0 = v := by
  have : ∀ i d, i < 4 → (le32 v ++ rest).getD i d = (le32 v).getD i d := fun i d hi =>
    getD_append_left d (by rw [le32_length]; omega)
  unfold readLE32 readByte
  rw [this 0 0 (by omega), this 1 0 (by omega), this 2 0 (by omega), this 3 0 (by omega)]
  show v % 256 % 256 + 256 * (v / 256 % 256 % 256) + 65536 * (v / 65536 % 256 % 256) +
    16777216 * (v / 16777216 % 256 % 256) = v
  omega

theorem readLE32_skip (v : Nat) (rest : List Nat) (i : Nat) :
    readLE32 (le32 v ++ rest) (4 + i) = readLE32 rest i := by
  have := readLE32_append_right (le32 v) rest i
  rwa [le32_length] at this

theorem readLE32_skip_list {a : List Nat} (n : Nat) (rest : List Nat) (i : Nat)
    (ha : a.length = n) : readLE32 (a ++ rest) (n + i) = readLE32 rest i := by
  subst ha; exact readLE32_append_right a rest i

/-- On genuine byte lists, `le32` re-serialises exactly the four bytes
`readLE32` read. -/
theorem le32_readLE32 (bs : List Nat) (p : Nat) (hb : IsBytes bs) (hp : p + 4 ≤ bs.length) :
    le32 (readLE32 bs p) = readAt bs p 4 := by
  have hbyte : ∀ i, i < bs.length → bs.getD i 0 < 256 := by
    intro i hi
    have : bs.getD i 0 ∈ bs := by
      rw [List.getD_eq_getElem?_getD, List.getElem?_eq_getElem hi]
      exact List.getElem_mem hi
    exact hb _ this
  have h0 := hbyte p (by omega)
  have h1 := hbyte (p + 1) (by omega)
  have h2 := hbyte (p + 2) (by omega)
  have h3 := hbyte (p + 3) (by omega)
  have hget : ∀ i, (bs.drop p).getD i 0 = bs.getD (p + i) 0 := by
    intro i
    rw [List.getD_eq_getElem?_getD, List.getD_eq_getElem?_getD, List.getElem?_drop]
  have htake : readAt bs p 4 = [bs.getD p 0, bs.getD (p + 1) 0, bs.getD (p + 2) 0,
      bs.getD (p + 3) 0] := by
    unfold readAt
    have hlen : 4 ≤ (bs.drop p).length := by simp; omega
    match hd : bs.drop p, hlen with
    | b0 :: b1 :: b2 :: b3 :: tl, _ =>
      have g0 := hget 0; have g1 := hget 1; have g2 := hget 2; have g3 := hget 3
      rw [hd] at g0 g1 g2 g3
      simp only [Nat.add_zero] at g0
      simp only [List.take]
      simp only [List.getD, List.getElem?_cons_zero, List.getElem?_cons_succ] at g0 g1 g2 g3
      simp_all [List.getD]
  rw [htake]
  unfold le32 readLE32 readByte
  rw [Nat.mod_eq_of_lt h0, Nat.mod_eq_of_lt h1, Nat.mod_eq_of_lt h2, Nat.mod_eq_of_lt h3]
  simp only [List.cons.injEq, and_true]
  omega

/-! ## `packHeader` layout lemmas -/

theorem packHeader_length {m pad2 desc : List Nat}
    {f0 f1 f2 f3 f4 f5 f6 f7 f8 f9 f10 f11 f12 : Nat}
    (hm : m.length = 16) (hp : pad2.length = Pad2Len) (hd : desc.length = 0x100) :
    (packHeader m f0 f1 f2 f3 f4 f5 f6 f7 f8 f9 f10 f11 f12 pad2 desc).length = FileHeadLen := by
  simp [packHeader, hm, hp, hd, le32, Pad2Len, FileHeadLen]

theorem packHeader_take16 {m pad2 desc : List Nat}
    {f0 f1 f2 f3 f4 f5 f6 f7 f8 f9 f10 f11 f12 : Nat} (hm : m.length = 16) :
    (packHeader m f0 f1 f2 f3 f4 f5 f6 f7 f8 f9 f10 f11 f12 pad2 desc).take 16 = m := by
  have : (packHeader m f0 f1 f2 f3 f4 f5 f6 f7 f8 f9 f10 f11 f12 pad2 desc).take 16 =
      (m ++ (le32 f0 ++ le32 f1 ++ le32 f2 ++ le32 f3 ++ le32 f4 ++ le32 f5 ++ le32 f6 ++
        le32 f7 ++ le32 f8 ++ le32 f9 ++ le32 f10 ++ le32 f11 ++ le32 f12 ++ pad2 ++
        desc)).take 16 := by
    simp [packHeader]
  rw [this, ← hm, List.take_left]

theorem packHeader_read_0x18 {m pad2 desc : List Nat}
    {f0 f1 f2 f3 f4 f5 f6 f7 f8 f9 f10 f11 f12 : Nat} (hm : m.length = 16) (h : f2 < 2 ^ 32) :
    readLE32 (packHeader m f0 f1 f2 f3 f4 f5 f6 f7 f8 f9 f10 f11 f12 pad2 desc) 0x18 = f2 := by
  have e : (0x18 : Nat) = 16 + (4 + (4 + 0)) := by norm_num
  simp only [packHeader, List.append_assoc]
  rw [e, readLE32_skip_list 16 _ _ hm]
  simp only [readLE32_skip]
  exact readLE32_le32_cons _ _ h

theorem packHeader_read_0x24 {m pad2 desc : List Nat}
    {f0 f1 f2 f3 f4 f5 f6 f7 f8 f9 f10 f11 f12 : Nat} (hm : m.length = 16) (h : f5 < 2 ^ 32) :
    readLE32 (packHeader m f0 f1 f2 f3 f4 f5 f6 f7 f8 f9 f10 f11 f12 pad2 desc) 0x24 = f5 := by
  have e : (0x24 : Nat) = 16 + (4 + (4 + (4 + (4 + (4 + 0))))) := by norm_num
  simp only [packHeader, List.append_assoc]
  rw [e, readLE32_skip_list 16 _ _ hm]
  simp only [readLE32_skip]
  exact readLE32_le32_cons _ _ h

theorem packHeader_read_0x28 {m pad2 desc : List Nat}
    {f0 f1 f2 f3 f4 f5 f6 f7 f8 f9 f10 f11 f12 : Nat} (hm : m.length = 16) (h : f6 < 2 ^ 32) :
    readLE32 (packHeader m f0 f1 f2 f3 f4 f5 f6 f7 f8 f9 f10 f11 f12 pad2 desc) 0x28 = f6 := by
  have e : (0x28 : Nat) = 16 + (4 + (4 + (4 + (4 + (4 + (4 + 0)))))) := by norm_num
  simp only [packHeader, List.append_assoc]
  rw [e, readLE32_skip_list 16 _ _ hm]
  simp only [readLE32_skip]
  exact readLE32_le32_cons _ _ h

theorem packHeader_read_0x2C {m pad2 desc : List Nat}
    {f0 f1 f2 f3 f4 f5 f6 f7 f8 f9 f10 f11 f12 : Nat} (hm : m.length = 16) (h : f7 < 2 ^ 32) :
    readLE32 (packHeader m f0 f1 f2 f3 f4 f5 f6 f7 f8 f9 f10 f11 f12 pad2 desc) 0x2C = f7 := by
  have e : (0x2C : Nat) = 16 + (4 + (4 + (4 + (4 + (4 + (4 + (4 + 0))))))) := by norm_num
  simp only [packHeader, List.append_assoc]
  rw [e, readLE32_skip_list 16 _ _ hm]
  simp only [readLE32_skip]
  exact readLE32_le32_cons _ _ h

theorem packHeader_read_0x30 {m pad2 desc : List Nat}
    {f0 f1 f2 f3 f4 f5 f6 f7 f8 f9 f10 f11 f12 : Nat} (hm : m.length = 16) (h : f8 < 2 ^ 32) :
    readLE32 (packHeader m f0 f1 f2 f3 f4 f5 f6 f7 f8 f9 f10 f11 f12 pad2 desc) 0x30 = f8 := by
  have e : (0x30 : Nat) = 16 + (4 + (4 + (4 + (4 + (4 + (4 + (4 + (4 + 0)))))))) := by norm_num
  simp only [packHeader, List.append_assoc]
  rw [e, readLE32_skip_list 16 _ _ hm]
  simp only [readLE32_skip]
  exact readLE32_le32_cons _ _ h

theorem packHeader_read_0x34 {m pad2 desc : List Nat}
    {f0 f1 f2 f3 f4 f5 f6 f7 f8 f9 f10 f11 f12 : Nat} (hm : m.length = 16) (h : f9 < 2 ^ 32) :
    readLE32 (packHeader m f0 f1 f2 f3 f4 f5 f6 f7 f8 f9 f10 f11 f12 pad2 desc) 0x34 = f9 := by
  have e : (0x34 : Nat) = 16 + (4 + (4 + (4 + (4 + (4 + (4 + (4 + (4 + (4 + 0))))))))) := by
    norm_num
  simp only [packHeader, List.append_assoc]
  rw [e, readLE32_skip_list 16 _ _ hm]
  simp only [readLE32_skip]
  exact readLE32_le32_cons _ _ h

theorem packHeader_read_0x40 {m pad2 desc : List Nat}
    {f0 f1 f2 f3 f4 f5 f6 f7 f8 f9 f10 f11 f12 : Nat} (hm : m.length = 16) (h : f12 < 2 ^ 32) :
    readLE32 (packHeader m f0 f1 f2 f3 f4 f5 f6 f7 f8 f9 f10 f11 f12 pad2 desc) 0x40 = f12 := by
  have e : (0x40 : Nat) =
      16 + (4 + (4 + (4 + (4 + (4 + (4 + (4 + (4 + (4 + (4 + (4 + (4 + 0)))))))))))) := by
    norm_num
  simp only [packHeader, List.append_assoc]
  rw [e, readLE32_skip_list 16 _ _ hm]
  simp only [readLE32_skip]
  exact readLE32_le32_cons _ _ h

/-! ## Strip lemmas -/

theorem dropWhile_eq_self_of {α : Type} (p : α → Bool) (l : List α)
    (h : ∀ x, l.head? = some x → p x = false) : l.dropWhile p = l := by
  cases l with
  | nil => rfl
  | cons a t => simp [List.dropWhile, h a rfl]

theorem rstripBy_eq_self_of {α : Type} (p : α → Bool) (l : List α)
    (h : ∀ x, l.getLast? = some x → p x = false) : rstripBy p l = l := by
  unfold rstripBy
  rw [dropWhile_eq_self_of p l.reverse, List.reverse_reverse]
  intro x hx
  exact h x (by rwa [List.head?_reverse] at hx)

theorem stripChars_eq_self {l : List Char}
    (hh : ∀ x, l.head? = some x → isSpaceChar x = false)
    (hl : ∀ x, l.getLast? = some x → isSpaceChar x = false) : stripChars l = l := by
  unfold stripChars
  rw [dropWhile_eq_self_of _ l hh, rstripBy_eq_self_of _ l hl]

theorem rstripBy_append_pos {α : Type} (p : α → Bool) (l : List α) (x : α) (hx : p x = true) :
    rstripBy p (l ++ [x]) = rstripBy p l := by
  unfold rstripBy
  rw [List.reverse_append]
  simp [List.dropWhile, hx]

theorem rstripBy_concat_neg {α : Type} (p : α → Bool) (l : List α) (x : α) (hx : p x = false) :
    rstripBy p (l ++ [x]) = l ++ [x] := by
  apply rstripBy_eq_self_of
  intro y hy
  simp at hy
  exact hy ▸ hx

theorem rstripNul_append_zero (l : List Nat) : rstripNul (l ++ [0]) = rstripNul l :=
  rstripBy_append_pos _ l 0 rfl

theorem rstripNul_eq_self_of (l : List Nat) (h : ∀ x, l.getLast? = some x → x ≠ 0) :
    rstripNul l = l := by
  apply rstripBy_eq_self_of
  intro x hx
  simpa using h x hx

/-! ## Decimal digit lemmas -/

theorem natToCharsGo_append (fuel n : Nat) (acc : List Char) :
    natToCharsGo fuel n acc = natToCharsGo fuel n [] ++ acc := by
  induction fuel generalizing n acc with
  | zero => simp [natToCharsGo]
  | succ fuel ih =>
    by_cases h : n = 0
    · simp [natToCharsGo, h]
    · rw [natToCharsGo, natToCharsGo, if_neg h, if_neg h, ih, ih (n / 10) [_]]
      simp

theorem natToCharsGo_digits (fuel n : Nat) (hn : n ≤ fuel) :
    ∀ c ∈ natToCharsGo fuel n [], c.isDigit = true := by
  induction fuel generalizing n with
  | zero => simp [natToCharsGo]
  | succ fuel ih =>
    by_cases h : n = 0
    · simp [natToCharsGo, h]
    · rw [natToCharsGo, if_neg h, natToCharsGo_append]
      intro c hc
      rcases List.mem_append.mp hc with hc | hc
      · exact ih (n / 10) (by omega) c hc
      · have : c = Char.ofNat (48 + n % 10) := by simpa using hc
        subst this
        have h10 : n % 10 < 10 := Nat.mod_lt _ (by norm_num)
        have : ∀ d, d < 10 → (Char.ofNat (48 + d)).isDigit = true := by decide
        exact this _ h10

theorem natToCharsGo_ne_nil (fuel n : Nat) (hn : n ≤ fuel) (h0 : n ≠ 0) :
    natToCharsGo fuel n [] ≠ [] := by
  cases fuel with
  | zero => omega
  | succ fuel =>
    rw [natToCharsGo, if_neg h0, natToCharsGo_append]
    simp

theorem digitsToNat_append (a b : List Char) :
    digitsToNat (a ++ b) = b.foldl (fun x c => x * 10 + (c.toNat - 48)) (digitsToNat a) := by
  unfold digitsToNat
  rw [List.foldl_append]

theorem digitsToNat_natToCharsGo (fuel n : Nat) (hn : n ≤ fuel) (h0 : n ≠ 0) :
    digitsToNat (natToCharsGo fuel n []) = n := by
  induction fuel generalizing n with
  | zero => omega
  | succ fuel ih =>
    rw [natToCharsGo, if_neg h0, natToCharsGo_append]
    by_cases h10 : n / 10 = 0
    · have hfz : ∀ f, natToCharsGo f 0 [] = [] := by
        intro f; cases f <;> simp [natToCharsGo]
      rw [h10, hfz]
      have hd : (Char.ofNat (48 + n % 10)).toNat = 48 + n % 10 := by
        have : ∀ d, d < 10 → (Char.ofNat (48 + d)).toNat = 48 + d := by decide
        exact this _ (Nat.mod_lt _ (by norm_num))
      simp [digitsToNat, hd]
      omega
    · rw [digitsToNat_append]
      have := ih (n / 10) (by omega) h10
      rw [this]
      have hd : (Char.ofNat (48 + n % 10)).toNat = 48 + n % 10 := by
        have : ∀ d, d < 10 → (Char.ofNat (48 + d)).toNat = 48 + d := by decide
        exact this _ (Nat.mod_lt _ (by norm_num))
      simp [hd]
      omega

theorem natToChars_all_digits (n : Nat) : ∀ c ∈ natToChars n, c.isDigit = true := by
  unfold natToChars
  by_cases h : n = 0
  · rw [if_pos h]; decide
  · rw [if_neg h]; exact natToCharsGo_digits n n (le_refl n)

theorem natToChars_ne_nil (n : Nat) : natToChars n ≠ [] := by
  unfold natToChars
  by_cases h : n = 0
  · rw [if_pos h]; simp
  · rw [if_neg h]; exact natToCharsGo_ne_nil n n (le_refl n) h

theorem digitsToNat_natToChars (n : Nat) : digitsToNat (natToChars n) = n := by
  unfold natToChars
  by_cases h : n = 0
  · rw [if_pos h, h]; decide
  · rw [if_neg h]; exact digitsToNat_natToCharsGo n n (le_refl n) h

theorem digit_not_space (c : Char) (h : c.isDigit = true) : isSpaceChar c = false := by
  by_contra hc
  rw [Bool.not_eq_false] at hc
  unfold isSpaceChar at hc
  simp only [Bool.or_eq_true, beq_iff_eq] at hc
  rcases hc with (((((hc | hc) | hc) | hc) | hc) | hc) <;> subst hc <;>
    exact absurd h (by decide)

theorem digit_ne_lbracket (c : Char) (h : c.isDigit = true) : c ≠ '[' := by
  intro he; subst he; exact absurd h (by decide)

theorem digit_ne_minus (c : Char) (h : c.isDigit = true) : c ≠ '-' := by
  intro he; subst he; exact absurd h (by decide)

theorem digit_ne_plus (c : Char) (h : c.isDigit = true) : c ≠ '+' := by
  intro he; subst he; exact absurd h (by decide)

/-- `parseInt` really is a left inverse of decimal rendering. -/
theorem parseInt_natToChars (n : Nat) : parseInt (natToChars n) = some (n : Int) := by
  have hne := natToChars_ne_nil n
  have hdig := natToChars_all_digits n
  have hall : (natToChars n).all Char.isDigit = true := List.all_eq_true.mpr hdig
  have hd := digitsToNat_natToChars n
  match hm : natToChars n, hne with
  | c :: rest, _ =>
    rw [hm] at hall hd
    have hcd : c.isDigit = true := by
      have := List.all_eq_true.mp hall
      exact this c (by simp)
    have hstep : parseInt (c :: rest) =
        if c = '-' then
          if rest ≠ [] ∧ rest.all Char.isDigit then some (-(digitsToNat rest : Int)) else none
        else if c = '+' then
          if rest ≠ [] ∧ rest.all Char.isDigit then some (digitsToNat rest : Int) else none
        else if (c :: rest).all Char.isDigit then some (digitsToNat (c :: rest) : Int) else none :=
      rfl
    rw [hstep, if_neg (digit_ne_minus c hcd), if_neg (digit_ne_plus c hcd), if_pos hall, hd]

/-! ## Line splitting and joining -/

theorem splitOnNL_ne_nil (s : List Char) : splitOnNL s ≠ [] := by
  cases s with
  | nil => simp [splitOnNL]
  | cons c rest =>
    unfold splitOnNL
    by_cases h : c = '\n' <;> simp [h]

theorem splitOnNL_cons_ne (c : Char) (t : List Char) (hc : c ≠ '\n') :
    splitOnNL (c :: t) = (c :: (splitOnNL t).headD []) :: (splitOnNL t).tail := by
  rw [splitOnNL, if_neg hc]

theorem joinNL_splitOnNL (s : List Char) : joinNL (splitOnNL s) = s := by
  induction s with
  | nil => rfl
  | cons c rest ih =>
    by_cases h : c = '\n'
    · subst h
      show joinNL ([] :: splitOnNL rest) = '\n' :: rest
      rcases hs : splitOnNL rest with _ | ⟨l, ls⟩
      · exact absurd hs (splitOnNL_ne_nil rest)
      · rw [hs] at ih
        rw [joinNL]
        simpa using ih
    · rw [splitOnNL_cons_ne c rest h]
      rcases hs : splitOnNL rest with _ | ⟨l, ls⟩
      · exact absurd hs (splitOnNL_ne_nil rest)
      · rw [hs] at ih
        simp only [List.headD_cons, List.tail_cons]
        cases ls with
        | nil => simpa [joinNL] using congrArg (c :: ·) ih
        | cons l2 ls2 =>
          show joinNL ((c :: l) :: l2 :: ls2) = c :: rest
          rw [joinNL] at ih ⊢
          simpa using ih

theorem splitOnNL_append (a b : List Char) (ha : '\n' ∉ a) :
    splitOnNL (a ++ b) = (a ++ (splitOnNL b).headD []) :: (splitOnNL b).tail := by
  induction a with
  | nil =>
    rcases hs : splitOnNL b with _ | ⟨l, ls⟩
    · exact absurd hs (splitOnNL_ne_nil b)
    · simp [hs]
  | cons c a ih =>
    have hc : c ≠ '\n' := fun he => ha (by simp [he])
    have ha' : '\n' ∉ a := fun hm => ha (by simp [hm])
    show splitOnNL (c :: (a ++ b)) = ((c :: a) ++ (splitOnNL b).headD []) :: (splitOnNL b).tail
    rw [splitOnNL_cons_ne c _ hc, ih ha']
    simp

theorem splitOnNL_append_nl (a b : List Char) (ha : '\n' ∉ a) :
    splitOnNL (a ++ '\n' :: b) = a :: splitOnNL b := by
  have h1 : splitOnNL ('\n' :: b) = [] :: splitOnNL b := by
    rw [splitOnNL, if_pos rfl]
  rw [splitOnNL_append a ('\n' :: b) ha, h1]
  rcases hs : splitOnNL b with _ | ⟨l, ls⟩
  · exact absurd hs (splitOnNL_ne_nil b)
  · simp [hs]

theorem splitOnNL_no_nl (a : List Char) (ha : '\n' ∉ a) : splitOnNL a = [a] := by
  have := splitOnNL_append a [] ha
  simpa [splitOnNL] using this

/-! ## Codec lemmas -/

theorem charOfNat_toNat_lt128 : ∀ b, b < 128 → (Char.ofNat b).toNat = b := by decide

theorem decode_byte_toNat (b : Nat) (hb : b < 128) : (cp932DecodeByte b).toNat = b := by
  unfold cp932DecodeByte
  rw [if_pos hb]
  exact charOfNat_toNat_lt128 b hb

/-- A decoded string whose characters are all ASCII re-encodes to exactly the
bytes it was decoded from. -/
theorem encode_decode_bytes (bs : List Nat)
    (h : ∀ c ∈ decodeCp932Replace bs, c.toNat < 128) :
    encodeCp932Replace (decodeCp932Replace bs) = bs := by
  induction bs with
  | nil => rfl
  | cons b t ih =>
    have hb : b < 128 := by
      by_contra hb
      have hc : cp932DecodeByte b = Char.ofNat 0xFFFD := by
        unfold cp932DecodeByte; rw [if_neg hb]
      have := h (cp932DecodeByte b) (by simp [decodeCp932Replace])
      rw [hc] at this
      have : (Char.ofNat 0xFFFD).toNat = 0xFFFD := by decide
      omega
    have ht : ∀ c ∈ decodeCp932Replace t, c.toNat < 128 := by
      intro c hc
      exact h c (by simp [decodeCp932Replace] at hc ⊢; exact Or.inr hc)
    show encodeCp932Replace (cp932DecodeByte b :: decodeCp932Replace t) = b :: t
    unfold encodeCp932Replace at ih ⊢
    simp only [List.flatMap_cons]
    have hdb : (cp932DecodeByte b).toNat = b := decode_byte_toNat b hb
    have henc : cp932EncodeChar (cp932DecodeByte b) = some [b] := by
      unfold cp932EncodeChar
      rw [hdb, if_pos hb]
    rw [henc, ih ht]
    rfl

theorem encodeCp932Replace_ascii (s : List Char) (h : ∀ c ∈ s, c.toNat < 128) :
    encodeCp932Replace s = s.map Char.toNat := by
  induction s with
  | nil => rfl
  | cons c t ih =>
    unfold encodeCp932Replace at ih ⊢
    simp only [List.flatMap_cons, List.map_cons]
    have henc : cp932EncodeChar c = some [c.toNat] := by
      unfold cp932EncodeChar
      rw [if_pos (h c (by simp))]
    rw [henc, ih fun x hx => h x (by simp [hx])]
    rfl

theorem decode_encode_ascii (s : List Char) (h : ∀ c ∈ s, c.toNat < 128) :
    decodeCp932Replace (s.map Char.toNat) = s := by
  induction s with
  | nil => rfl
  | cons c t ih =>
    show cp932DecodeByte c.toNat :: decodeCp932Replace (t.map Char.toNat) = c :: t
    have hc : c.toNat < 128 := h c (by simp)
    have : cp932DecodeByte c.toNat = c := by
      unfold cp932DecodeByte
      rw [if_pos hc, Char.ofNat_toNat]
    rw [this, ih fun x hx => h x (by simp [hx])]

/-! ## Strip idempotence -/

theorem dropWhile_head_not {α : Type} (p : α → Bool) (l : List α) :
    ∀ x, (l.dropWhile p).head? = some x → p x = false := by
  induction l with
  | nil => intro x hx; simp [List.dropWhile] at hx
  | cons a t ih =>
    intro x hx
    by_cases h : p a
    · rw [List.dropWhile_cons_of_pos h] at hx
      exact ih x hx
    · rw [List.dropWhile_cons_of_neg h] at hx
      simp at hx
      subst hx
      rwa [Bool.not_eq_true] at h

theorem rstripBy_concat {α : Type} (p : α → Bool) (l : List α) (x : α) :
    rstripBy p (l ++ [x]) = if p x then rstripBy p l else l ++ [x] := by
  by_cases h : p x
  · rw [if_pos h]; exact rstripBy_append_pos p l x h
  · rw [if_neg h]
    exact rstripBy_concat_neg p l x (by rwa [Bool.not_eq_true] at h)

theorem rstripBy_head {α : Type} (p : α → Bool) (m : List α) :
    ∀ x, (rstripBy p m).head? = some x → m.head? = some x := by
  induction m using List.reverseRecOn with
  | nil => intro x hx; simpa [rstripBy] using hx
  | append_singleton l y ih =>
    intro x hx
    rw [rstripBy_concat] at hx
    by_cases h : p y
    · rw [if_pos h] at hx
      have hl := ih x hx
      cases l with
      | nil => simp at hl
      | cons a t => simpa using hl
    · rwa [if_neg h] at hx

theorem rstripBy_getLast_not {α : Type} (p : α → Bool) (l : List α) :
    ∀ x, (rstripBy p l).getLast? = some x → p x = false := by
  intro x hx
  unfold rstripBy at hx
  rw [List.getLast?_reverse] at hx
  exact dropWhile_head_not p l.reverse x hx

theorem stripChars_head_not (l : List Char) :
    ∀ x, (stripChars l).head? = some x → isSpaceChar x = false := by
  intro x hx
  exact dropWhile_head_not _ _ _ (rstripBy_head isSpaceChar (l.dropWhile isSpaceChar) x hx)

theorem stripChars_getLast_not (l : List Char) :
    ∀ x, (stripChars l).getLast? = some x → isSpaceChar x = false := by
  intro x hx
  exact rstripBy_getLast_not isSpaceChar (l.dropWhile isSpaceChar) x hx

theorem stripChars_idem (l : List Char) : stripChars (stripChars l) = stripChars l :=
  stripChars_eq_self (stripChars_head_not l) (stripChars_getLast_not l)

/-! ## Parser step characterisation -/

theorem isPrefixOf_append_self (a b : List Char) : a.isPrefixOf (a ++ b) = true := by
  induction a with
  | nil => simp [List.isPrefixOf]
  | cons c t ih => simpa [List.isPrefixOf] using ih

theorem exists_of_isPrefixOf (a : List Char) :
    ∀ l, a.isPrefixOf l = true → ∃ t, l = a ++ t := by
  induction a with
  | nil => intro l _; exact ⟨l, rfl⟩
  | cons c t ih =>
    intro l h
    cases l with
    | nil => simp [List.isPrefixOf] at h
    | cons c' l' =>
      simp only [List.isPrefixOf, Bool.and_eq_true, beq_iff_eq] at h
      obtain ⟨t', ht⟩ := ih l' h.2
      refine ⟨t', ?_⟩
      rw [h.1, ht]
      rfl

theorem parseTxtStep_eq_line (st : ParseState) (raw : List Char) :
    parseTxtStep st raw = parseTxtLine st (stripChars raw) := rfl

theorem parseTxtStep_strip_invariant (st : ParseState) (raw : List Char) :
    parseTxtStep st raw = parseTxtStep st (stripChars raw) := by
  rw [parseTxtStep_eq_line, parseTxtStep_eq_line, stripChars_idem]

theorem parseTxtLine_blank (st : ParseState) : parseTxtLine st [] = some st := rfl

theorem parseTxtLine_headerTag (st : ParseState) :
    parseTxtLine st "[Header]".data = some { st with currentSection := some Sect.header } := rfl

theorem parseTxtLine_indexTag (st : ParseState) (line : List Char) (n : Int)
    (hpre : "[Index=".data.isPrefixOf line = true)
    (hn : parseInt (rstripBy (fun c => c == ']') (afterFirst '=' line)) = some n) :
    parseTxtLine st line =
      if n ≠ (st.strings.length + 1 : Int) then none
      else some { st with currentSection := some Sect.index, currentIndex := some n,
                          strings := st.strings ++ [[]] } := by
  obtain ⟨t, ht⟩ := exists_of_isPrefixOf _ line hpre
  subst ht
  unfold parseTxtLine
  rw [if_neg (by simp), if_pos (by simp), if_neg (by simp), if_pos hpre, hn]

theorem parseTxtLine_unknownTag (st : ParseState) (line : List Char)
    (hne : line ≠ []) (hhead : line.head? = some '[')
    (hh : line ≠ "[Header]".data) (hi : "[Index=".data.isPrefixOf line = false) :
    parseTxtLine st line = some { st with currentSection := none } := by
  unfold parseTxtLine
  rw [if_neg hne, if_pos hhead, if_neg hh, hi]
  rfl

theorem parseTxtLine_content_skip (st : ParseState) (line : List Char)
    (hne : line ≠ []) (hhead : line.head? ≠ some '[') (hsec : st.currentSection = none) :
    parseTxtLine st line = some st := by
  unfold parseTxtLine
  rw [if_neg hne, if_neg hhead, hsec]

theorem parseTxtLine_headerContent (st : ParseState) (line : List Char)
    (hne : line ≠ []) (hhead : line.head? ≠ some '[')
    (hsec : st.currentSection = some Sect.header) (heq : hasChar '=' line = true) :
    parseTxtLine st line =
      some { st with
             header := dictSet st.header (stripChars (splitOnceAt '=' line).1)
               (stripChars (splitOnceAt '=' line).2) } := by
  unfold parseTxtLine
  rw [if_neg hne, if_neg hhead, hsec]
  simp only [heq, if_true]

theorem parseTxtLine_indexContent (st : ParseState) (line : List Char)
    (hne : line ≠ []) (hhead : line.head? ≠ some '[')
    (hsec : st.currentSection = some Sect.index) (hci : st.currentIndex = some n)
    (hn : 1 ≤ n ∧ n ≤ (st.strings.length : Int)) :
    parseTxtLine st line =
      some { st with
             strings := st.strings.set (n - 1).toNat
               (strAccum (st.strings.getD (n - 1).toNat []) line) } := by
  unfold parseTxtLine
  rw [if_neg hne, if_neg hhead, hsec, hci]
  simp [hn]

/-! ## Parsing the rendered document: content accumulation -/

theorem splitOnNL_glue (a b : List Char) :
    splitOnNL (a ++ '\n' :: b) = splitOnNL a ++ splitOnNL b := by
  induction a with
  | nil =>
    show splitOnNL ('\n' :: b) = splitOnNL [] ++ splitOnNL b
    simp [splitOnNL]
  | cons c a ih =>
    by_cases hc : c = '\n'
    · subst hc
      show splitOnNL ('\n' :: (a ++ '\n' :: b)) = splitOnNL ('\n' :: a) ++ splitOnNL b
      have hx : ∀ t, splitOnNL ('\n' :: t) = [] :: splitOnNL t := by
        intro t
        simp [splitOnNL]
      rw [hx, hx, ih]
      rfl
    · show splitOnNL (c :: (a ++ '\n' :: b)) = splitOnNL (c :: a) ++ splitOnNL b
      rw [splitOnNL_cons_ne c _ hc, splitOnNL_cons_ne c _ hc, ih]
      rcases hs : splitOnNL a with _ | ⟨l, ls⟩
      · exact absurd hs (splitOnNL_ne_nil a)
      · simp

theorem joinNL_cons_assoc (cur l : List Char) (ls : List (List Char)) :
    joinNL ((cur ++ '\n' :: l) :: ls) = cur ++ '\n' :: joinNL (l :: ls) := by
  cases ls with
  | nil => simp [joinNL]
  | cons l2 ls2 =>
    rw [joinNL, joinNL]
    simp

theorem foldl_strAccum_ne_nil (ls : List (List Char)) (cur : List Char) (hc : cur ≠ []) :
    ls.foldl strAccum cur = joinNL (cur :: ls) := by
  induction ls generalizing cur with
  | nil => simp [joinNL]
  | cons l ls ih =>
    rw [List.foldl_cons]
    have hacc : strAccum cur l = cur ++ '\n' :: l := by unfold strAccum; rw [if_neg hc]
    rw [hacc, ih _ (by simp), joinNL_cons_assoc, joinNL]

theorem foldl_strAccum_splitOnNL (s : List Char) (hs : s ≠ [])
    (hgood : ∀ l ∈ splitOnNL s, l ≠ []) :
    (splitOnNL s).foldl strAccum [] = s := by
  rcases hsp : splitOnNL s with _ | ⟨l, ls⟩
  · exact absurd hsp (splitOnNL_ne_nil s)
  · have hl : l ≠ [] := hgood l (by rw [hsp]; simp)
    rw [List.foldl_cons]
    have hacc : strAccum [] l = l := by unfold strAccum; rw [if_pos rfl]
    rw [hacc, foldl_strAccum_ne_nil ls l hl, ← hsp, joinNL_splitOnNL]

theorem getD_append_len {α : Type} (pre : List α) (cur : α) (d : α) (t : List α) :
    (pre ++ cur :: t).getD pre.length d = cur := by
  have h2 : (pre ++ (cur :: t))[pre.length]? = (cur :: t)[pre.length - pre.length]? :=
    List.getElem?_append_right (le_refl pre.length)
  rw [List.getD_eq_getElem?_getD, h2]
  simp

theorem set_append_len {α : Type} (pre : List α) (cur y : α) :
    (pre ++ [cur]).set pre.length y = pre ++ [y] := by
  induction pre with
  | nil => rfl
  | cons a t ih => simp [List.set, ih]

/-- Folding the parser over the body lines of one index section accumulates
them into the section's string with `'\n'` separators. -/
theorem parse_content_lines (ls : List (List Char)) :
    ∀ (d : Dict) (pre : List (List Char)) (cur : List Char),
      (∀ l ∈ ls, GoodLine l) →
      List.foldlM parseTxtStep
          ⟨d, pre ++ [cur], some Sect.index, some ((pre.length : Int) + 1)⟩ ls =
        some ⟨d, pre ++ [ls.foldl strAccum cur], some Sect.index,
              some ((pre.length : Int) + 1)⟩ := by
  induction ls with
  | nil => intro d pre cur _; simp
  | cons l ls ih =>
    intro d pre cur hgood
    obtain ⟨hne, hstrip, hhead⟩ := hgood l (by simp)
    have hn : 1 ≤ ((pre.length : Int) + 1) ∧
        ((pre.length : Int) + 1) ≤ (((pre ++ [cur]).length : Nat) : Int) := by
      constructor
      · omega
      · simp
    have hi : (((pre.length : Int) + 1) - 1).toNat = pre.length := by omega
    have hstep : parseTxtStep
        ⟨d, pre ++ [cur], some Sect.index, some ((pre.length : Int) + 1)⟩ l =
        some ⟨d, pre ++ [strAccum cur l], some Sect.index, some ((pre.length : Int) + 1)⟩ := by
      rw [parseTxtStep_eq_line, hstrip,
        parseTxtLine_indexContent _ l hne hhead rfl rfl hn]
      rw [hi]
      rw [show (pre ++ [cur]).getD pre.length [] = cur from getD_append_len pre cur [] [],
        set_append_len]
    have hbind : List.foldlM parseTxtStep
        ⟨d, pre ++ [cur], some Sect.index, some ((pre.length : Int) + 1)⟩ (l :: ls) =
        List.foldlM parseTxtStep
          ⟨d, pre ++ [strAccum cur l], some Sect.index, some ((pre.length : Int) + 1)⟩ ls := by
      rw [List.foldlM_cons, hstep]
      rfl
    rw [hbind, ih d pre (strAccum cur l) (fun x hx => hgood x (by simp [hx]))]
    rfl

/-! ## Parsing the rendered document: section structure -/

theorem afterFirst_append (a b : List Char) (sep : Char) (ha : ∀ c ∈ a, c ≠ sep) :
    afterFirst sep (a ++ sep :: b) = b := by
  induction a with
  | nil => simp [afterFirst]
  | cons c t ih =>
    show afterFirst sep (c :: (t ++ sep :: b)) = b
    unfold afterFirst
    rw [if_neg (ha c (by simp)), ih fun x hx => ha x (by simp [hx])]

theorem splitOnceAt_append (a b : List Char) (sep : Char) (ha : ∀ c ∈ a, c ≠ sep) :
    splitOnceAt sep (a ++ sep :: b) = (a, b) := by
  induction a with
  | nil => simp [splitOnceAt]
  | cons c t ih =>
    show splitOnceAt sep (c :: (t ++ sep :: b)) = (c :: t, b)
    unfold splitOnceAt
    rw [if_neg (ha c (by simp)), ih fun x hx => ha x (by simp [hx])]

theorem hasChar_append_mid (a b : List Char) (sep : Char) :
    hasChar sep (a ++ sep :: b) = true := by
  unfold hasChar
  simp

theorem digit_ne_nl (c : Char) (h : c.isDigit = true) : c ≠ '\n' := by
  intro he; subst he; exact absurd h (by decide)

theorem natToChars_no_nl (n : Nat) : '\n' ∉ natToChars n := by
  intro hm
  exact absurd (natToChars_all_digits n _ hm) (by decide)

theorem natToChars_getLast_digit (n : Nat) :
    ∀ x, (natToChars n).getLast? = some x → x.isDigit = true := by
  intro x hx
  have hmem : x ∈ natToChars n := by
    have := List.getLast?_eq_getLast (natToChars n) (natToChars_ne_nil n)
    rw [this] at hx
    have hxe : x = (natToChars n).getLast (natToChars_ne_nil n) := by
      simpa using hx.symm
    rw [hxe]
    exact List.getLast_mem (natToChars_ne_nil n)
  exact natToChars_all_digits n x hmem

theorem indexTag_strip (n : Nat) :
    stripChars ("[Index=".data ++ natToChars n ++ "]".data) =
      "[Index=".data ++ natToChars n ++ "]".data := by
  apply stripChars_eq_self
  · intro x hx
    have he : ("[Index=".data ++ natToChars n ++ "]".data).head? = some '[' := rfl
    have h3 : '[' = x := Option.some.inj (he.symm.trans hx)
    rw [← h3]
    decide
  · intro x hx
    have he : "[Index=".data ++ natToChars n ++ "]".data =
        ("[Index=".data ++ natToChars n) ++ [']'] := by simp
    rw [he, List.getLast?_concat] at hx
    have : x = ']' := by simpa using hx.symm
    subst this
    decide

theorem indexTag_head (n : Nat) :
    ("[Index=".data ++ natToChars n ++ "]".data).head? = some '[' := rfl

theorem parse_indexTag_num (n : Nat) :
    parseInt (rstripBy (fun c => c == ']')
      (afterFirst '=' ("[Index=".data ++ natToChars n ++ "]".data))) = some (n : Int) := by
  have h1 : "[Index=".data ++ natToChars n ++ "]".data =
      "[Index".data ++ '=' :: (natToChars n ++ [']']) := by
    show ("[Index".data ++ ['=']) ++ natToChars n ++ "]".data = _
    simp
  rw [h1, afterFirst_append _ _ _ (by decide)]
  rw [show natToChars n ++ [']'] = natToChars n ++ [']'] from rfl,
    rstripBy_append_pos _ _ _ (by simp)]
  rw [rstripBy_eq_self_of _ _ fun x hx => by
    have hd := natToChars_getLast_digit n x hx
    simp only [beq_eq_false_iff_ne, ne_eq]
    intro he
    subst he
    exact absurd hd (by decide)]
  exact parseInt_natToChars n

theorem indexTag_isPrefix (n : Nat) :
    "[Index=".data.isPrefixOf ("[Index=".data ++ natToChars n ++ "]".data) = true := by
  rw [List.append_assoc]
  exact isPrefixOf_append_self _ _

theorem parse_indexTag_step (d : Dict) (pre : List (List Char)) (sec : Option Sect)
    (ci : Option Int) :
    parseTxtStep ⟨d, pre, sec, ci⟩
        ("[Index=".data ++ natToChars (pre.length + 1) ++ "]".data) =
      some ⟨d, pre ++ [[]], some Sect.index, some ((pre.length : Int) + 1)⟩ := by
  rw [parseTxtStep_eq_line, indexTag_strip]
  have hn := parse_indexTag_num (pre.length + 1)
  have hcast : ((pre.length + 1 : Nat) : Int) = (pre.length : Int) + 1 := by push_cast; ring
  rw [hcast] at hn
  rw [parseTxtLine_indexTag _ _ ((pre.length : Int) + 1) (indexTag_isPrefix _) hn]
  rw [if_neg (by simp)]

theorem optionBind_some {α β : Type} (a : α) (f : α → Option β) : (some a >>= f) = f a := rfl

/-- Folding the parser over the rendered sections numbered from
`pre.length + 1` appends exactly the rendered strings. -/
theorem parse_render_sections (ss : List (List Char)) :
    ∀ (d : Dict) (pre : List (List Char)) (sec : Option Sect) (ci : Option Int),
      (∀ s ∈ ss, s = [] ∨ ∀ l ∈ splitOnNL s, GoodLine l) →
      ∃ sec' ci',
        List.foldlM parseTxtStep ⟨d, pre, sec, ci⟩
            (splitOnNL (renderSections (pre.length + 1) ss)) =
          some ⟨d, pre ++ ss, sec', ci'⟩ := by
  induction ss with
  | nil =>
    intro d pre sec ci _
    refine ⟨sec, ci, ?_⟩
    show List.foldlM parseTxtStep _ (splitOnNL (renderSections (pre.length + 1) [])) = _
    rw [show renderSections (pre.length + 1) [] = [] from rfl]
    show List.foldlM parseTxtStep _ [[]] = _
    simp [List.foldlM_cons, parseTxtStep, stripChars, rstripBy, parseTxtLine]
  | cons s rest ih =>
    intro d pre sec ci hgood
    have hstream : renderSections (pre.length + 1) (s :: rest) =
        ("[Index=".data ++ natToChars (pre.length + 1) ++ "]".data) ++ '\n' ::
          (s ++ '\n' :: ('\n' :: renderSections (pre.length + 1 + 1) rest)) := by
      show "[Index=".data ++ natToChars (pre.length + 1) ++ "]\n".data ++ s ++ "\n\n".data ++
          renderSections (pre.length + 1 + 1) rest = _
      have e1 : "]\n".data = ']' :: '\n' :: ([] : List Char) := rfl
      have e2 : "\n\n".data = '\n' :: '\n' :: ([] : List Char) := rfl
      have e3 : "]".data = [']'] := rfl
      rw [e1, e2, e3]
      simp
    have htagnl : '\n' ∉ "[Index=".data ++ natToChars (pre.length + 1) ++ "]".data := by
      intro hm
      rcases List.mem_append.mp hm with hm | hm
      · rcases List.mem_append.mp hm with hm | hm
        · simp at hm
        · exact natToChars_no_nl _ hm
      · simp at hm
    have hlines : splitOnNL (renderSections (pre.length + 1) (s :: rest)) =
        ("[Index=".data ++ natToChars (pre.length + 1) ++ "]".data) ::
          (splitOnNL s ++ [] :: splitOnNL (renderSections (pre.length + 1 + 1) rest)) := by
      rw [hstream, splitOnNL_glue, splitOnNL_no_nl _ htagnl, splitOnNL_glue]
      have : splitOnNL ('\n' :: renderSections (pre.length + 1 + 1) rest) =
          [] :: splitOnNL (renderSections (pre.length + 1 + 1) rest) := by
        simp [splitOnNL]
      rw [this]
      rfl
    have hmid : List.foldlM parseTxtStep
        ⟨d, pre ++ [[]], some Sect.index, some ((pre.length : Int) + 1)⟩ (splitOnNL s) =
        some ⟨d, pre ++ [s], some Sect.index, some ((pre.length : Int) + 1)⟩ := by
      by_cases hse : s = []
      · subst hse
        show List.foldlM parseTxtStep _ [[]] = _
        simp [List.foldlM_cons, parseTxtStep, stripChars, rstripBy, parseTxtLine]
      · rcases hgood s (by simp) with hs | hs
        · exact absurd hs hse
        · rw [parse_content_lines (splitOnNL s) d pre [] hs,
            foldl_strAccum_splitOnNL s hse fun l hl => (hs l hl).1]
    have hblank : parseTxtStep
        ⟨d, pre ++ [s], some Sect.index, some ((pre.length : Int) + 1)⟩ [] =
        some ⟨d, pre ++ [s], some Sect.index, some ((pre.length : Int) + 1)⟩ := rfl
    obtain ⟨sec', ci', hrest⟩ := ih d (pre ++ [s]) (some Sect.index)
      (some ((pre.length : Int) + 1)) (fun x hx => hgood x (by simp [hx]))
    have hlen : (pre ++ [s]).length + 1 = pre.length + 1 + 1 := by simp
    rw [hlen] at hrest
    refine ⟨sec', ci', ?_⟩
    rw [hlines, List.foldlM_cons, parse_indexTag_step d pre sec ci, optionBind_some,
      List.foldlM_append, hmid, optionBind_some, List.foldlM_cons, hblank, optionBind_some,
      hrest]
    simp
/-! ## Parsing the rendered document: header block -/

theorem natToChars_head_digit (n : Nat) :
    ∀ x, (natToChars n).head? = some x → x.isDigit = true := by
  intro x hx
  rcases hm : natToChars n with _ | ⟨c, t⟩
  · exact absurd hm (natToChars_ne_nil n)
  · rw [hm] at hx
    have : x = c := by simpa using hx.symm
    subst this
    exact natToChars_all_digits n x (by rw [hm]; simp)

theorem stripChars_space_digits (n : Nat) : stripChars (' ' :: natToChars n) = natToChars n := by
  unfold stripChars
  rw [List.dropWhile_cons_of_pos (by decide)]
  rw [dropWhile_eq_self_of _ _ fun x hx =>
    digit_not_space x (natToChars_head_digit n x hx)]
  exact rstripBy_eq_self_of _ _ fun x hx =>
    digit_not_space x (natToChars_getLast_digit n x hx)

theorem kv_digit_line_strip (a : List Char) (n : Nat) (c : Char) (t : List Char)
    (hae : a = c :: t) (hcsp : isSpaceChar c = false) :
    stripChars (a ++ '=' :: (' ' :: natToChars n)) = a ++ '=' :: (' ' :: natToChars n) := by
  apply stripChars_eq_self
  · intro x hx
    subst hae
    have : x = c := by simpa using hx.symm
    subst this
    exact hcsp
  · intro x hx
    have h1 : ('=' :: (' ' :: natToChars n) : List Char) ≠ [] := by simp
    rw [List.getLast?_append_of_ne_nil _ h1] at hx
    have h2 : ('=' :: (' ' :: natToChars n) : List Char) = ['=', ' '] ++ natToChars n := rfl
    rw [h2, List.getLast?_append_of_ne_nil _ (natToChars_ne_nil n)] at hx
    exact digit_not_space x (natToChars_getLast_digit n x hx)

/-- A header-section line of the shape `KEY = <digits>` inserts the stripped
key with the digit string as value. -/
theorem parse_kv_digit_step (d : Dict) (ss : List (List Char)) (ci : Option Int)
    (a : List Char) (n : Nat) (c : Char) (t : List Char)
    (hae : a = c :: t) (hcsp : isSpaceChar c = false) (hcbr : c ≠ '[')
    (hnoeq : ∀ x ∈ a, x ≠ '=') :
    parseTxtStep ⟨d, ss, some Sect.header, ci⟩ (a ++ '=' :: (' ' :: natToChars n)) =
      some ⟨dictSet d (stripChars a) (natToChars n), ss, some Sect.header, ci⟩ := by
  rw [parseTxtStep_eq_line, kv_digit_line_strip a n c t hae hcsp]
  have hne : a ++ '=' :: (' ' :: natToChars n) ≠ [] := by subst hae; simp
  have hhead : (a ++ '=' :: (' ' :: natToChars n)).head? ≠ some '[' := by
    subst hae
    simp only [List.cons_append, List.head?_cons]
    intro hcon
    exact hcbr (by simpa using hcon)
  rw [parseTxtLine_headerContent _ _ hne hhead rfl (hasChar_append_mid _ _ _)]
  rw [splitOnceAt_append _ _ _ hnoeq]
  rw [stripChars_space_digits]

/-- The `FILE_DESCRIPTION` line inserts the key `FILE_DESCRIPTION` with some
value, and nothing else. -/
theorem parse_descLine_step (d : Dict) (ss : List (List Char)) (ci : Option Int)
    (desc : List Char) (hstrip : stripChars desc = desc) :
    ∃ v, parseTxtStep ⟨d, ss, some Sect.header, ci⟩ ("FILE_DESCRIPTION = ".data ++ desc) =
      some ⟨dictSet d "FILE_DESCRIPTION".data v, ss, some Sect.header, ci⟩ := by
  by_cases hde : desc = []
  · subst hde
    refine ⟨[], ?_⟩
    rw [parseTxtStep_eq_line]
    have h1 : stripChars ("FILE_DESCRIPTION = ".data ++ []) = "FILE_DESCRIPTION =".data := by
      decide
    rw [h1]
    rw [parseTxtLine_headerContent _ _ (by decide) (by decide) rfl (by decide)]
    have h2 : splitOnceAt '=' "FILE_DESCRIPTION =".data = ("FILE_DESCRIPTION ".data, []) := by
      decide
    rw [h2]
    have h3 : stripChars "FILE_DESCRIPTION ".data = "FILE_DESCRIPTION".data := by decide
    have h4 : stripChars ([] : List Char) = [] := by decide
    rw [h3, h4]
  · refine ⟨desc, ?_⟩
    rw [parseTxtStep_eq_line]
    have hform : "FILE_DESCRIPTION = ".data ++ desc =
        "FILE_DESCRIPTION ".data ++ '=' :: (' ' :: desc) := by
      show ("FILE_DESCRIPTION ".data ++ ['=', ' ']) ++ desc = _
      simp
    have hdh : ∀ x, desc.head? = some x → isSpaceChar x = false := by
      intro x hx
      rw [← hstrip] at hx
      exact stripChars_head_not desc x hx
    have hdl : ∀ x, desc.getLast? = some x → isSpaceChar x = false := by
      intro x hx
      rw [← hstrip] at hx
      exact stripChars_getLast_not desc x hx
    have h1 : stripChars ("FILE_DESCRIPTION = ".data ++ desc) =
        "FILE_DESCRIPTION = ".data ++ desc := by
      apply stripChars_eq_self
      · intro x hx
        have : x = 'F' := by simpa using hx.symm
        subst this
        decide
      · intro x hx
        rw [List.getLast?_append_of_ne_nil _ hde] at hx
        exact hdl x hx
    rw [h1]
    have hne : "FILE_DESCRIPTION = ".data ++ desc ≠ [] := by simp
    have hhead : ("FILE_DESCRIPTION = ".data ++ desc).head? ≠ some '[' := by
      have hf : ("FILE_DESCRIPTION = ".data ++ desc).head? = some 'F' := rfl
      rw [hf]
      intro hcon
      have : ('F' : Char) = '[' := by simpa using hcon
      exact absurd this (by decide)
    have hch : hasChar '=' ("FILE_DESCRIPTION = ".data ++ desc) = true := by
      rw [hform]
      exact hasChar_append_mid _ _ _
    rw [parseTxtLine_headerContent _ _ hne hhead rfl hch]
    rw [hform, splitOnceAt_append _ _ _ (by decide)]
    have h3 : stripChars "FILE_DESCRIPTION ".data = "FILE_DESCRIPTION".data := by decide
    have h4 : stripChars (' ' :: desc) = desc := by
      unfold stripChars
      rw [List.dropWhile_cons_of_pos (by decide)]
      rw [dropWhile_eq_self_of _ _ hdh]
      exact rstripBy_eq_self_of _ _ hdl
    rw [h3, h4]

/-! ## Parsing the rendered document: the whole document -/

theorem renderDoc_lines (doc : ExtractedDoc) (hdesc : '\n' ∉ doc.description) :
    splitOnNL (renderDoc doc) =
      "[Header]".data ::
        ("STRING_COUNT ".data ++ '=' :: (' ' :: natToChars doc.stringCount)) ::
        ("TEXT_COUNT ".data ++ '=' :: (' ' :: natToChars doc.textCount)) ::
        ("FILE_DESCRIPTION = ".data ++ doc.description) :: [] ::
        splitOnNL (renderSections 1 doc.strings) := by
  have hform : renderDoc doc =
      "[Header]".data ++ '\n' ::
        (("STRING_COUNT ".data ++ '=' :: (' ' :: natToChars doc.stringCount)) ++ '\n' ::
          (("TEXT_COUNT ".data ++ '=' :: (' ' :: natToChars doc.textCount)) ++ '\n' ::
            (("FILE_DESCRIPTION = ".data ++ doc.description) ++ '\n' ::
              ('\n' :: renderSections 1 doc.strings)))) := by
    show "[Header]\nSTRING_COUNT = ".data ++ natToChars doc.stringCount ++
        "\nTEXT_COUNT = ".data ++ natToChars doc.textCount ++
        "\nFILE_DESCRIPTION = ".data ++ doc.description ++ "\n\n".data ++
        renderSections 1 doc.strings = _
    have e1 : "[Header]\nSTRING_COUNT = ".data =
        "[Header]".data ++ '\n' :: ("STRING_COUNT ".data ++ ['=', ' ']) := by decide
    have e2 : "\nTEXT_COUNT = ".data = '\n' :: ("TEXT_COUNT ".data ++ ['=', ' ']) := by decide
    have e3 : "\nFILE_DESCRIPTION = ".data = '\n' :: "FILE_DESCRIPTION = ".data := by decide
    have e4 : "\n\n".data = '\n' :: '\n' :: ([] : List Char) := by decide
    rw [e1, e2, e3, e4]
    simp
  have d1 : '\n' ∉ "STRING_COUNT ".data ++ '=' :: (' ' :: natToChars doc.stringCount) := by
    intro hm
    simp only [List.mem_append, List.mem_cons] at hm
    rcases hm with hm | hm | hm | hm
    · exact absurd hm (by decide)
    · exact absurd hm (by decide)
    · exact absurd hm (by decide)
    · exact natToChars_no_nl _ hm
  have d2 : '\n' ∉ "TEXT_COUNT ".data ++ '=' :: (' ' :: natToChars doc.textCount) := by
    intro hm
    simp only [List.mem_append, List.mem_cons] at hm
    rcases hm with hm | hm | hm | hm
    · exact absurd hm (by decide)
    · exact absurd hm (by decide)
    · exact absurd hm (by decide)
    · exact natToChars_no_nl _ hm
  have d3 : '\n' ∉ "FILE_DESCRIPTION = ".data ++ doc.description := by
    intro hm
    rcases List.mem_append.mp hm with hm | hm
    · exact absurd hm (by decide)
    · exact hdesc hm
  have hnlsec : splitOnNL ('\n' :: renderSections 1 doc.strings) =
      [] :: splitOnNL (renderSections 1 doc.strings) := by
    simp [splitOnNL]
  rw [hform, splitOnNL_glue, splitOnNL_glue, splitOnNL_glue, splitOnNL_glue,
    splitOnNL_no_nl _ (by decide), splitOnNL_no_nl _ d1, splitOnNL_no_nl _ d2,
    splitOnNL_no_nl _ d3, hnlsec]
  rfl


/-- Parsing the rendered document back: the strings survive verbatim and the
header dictionary declares the rendered counts. -/
theorem parse_renderDoc (doc : ExtractedDoc)
    (hdescnl : '\n' ∉ doc.description)
    (hdescstrip : stripChars doc.description = doc.description)
    (hgood : ∀ s ∈ doc.strings, s = [] ∨ ∀ l ∈ splitOnNL s, GoodLine l) :
    ∃ v, parse_txt (splitOnNL (renderDoc doc)) =
      some (dictSet (dictSet (dictSet [] strCountKey (natToChars doc.stringCount))
              textCountKey (natToChars doc.textCount)) "FILE_DESCRIPTION".data v,
            doc.strings) := by
  have hstep1 : parseTxtStep initParseState "[Header]".data =
      some ⟨[], [], some Sect.header, none⟩ := by
    rw [parseTxtStep_eq_line]
    have h : stripChars "[Header]".data = "[Header]".data := by decide
    rw [h, parseTxtLine_headerTag]
    rfl
  have hkey1 : stripChars "STRING_COUNT ".data = strCountKey := by decide
  have hkey2 : stripChars "TEXT_COUNT ".data = textCountKey := by decide
  have hstep2 := parse_kv_digit_step [] [] none "STRING_COUNT ".data doc.stringCount
    'S' "TRING_COUNT ".data rfl (by decide) (by decide) (by decide)
  rw [hkey1] at hstep2
  have hstep3 := parse_kv_digit_step (dictSet [] strCountKey (natToChars doc.stringCount))
    [] none "TEXT_COUNT ".data doc.textCount 'T' "EXT_COUNT ".data rfl
    (by decide) (by decide) (by decide)
  rw [hkey2] at hstep3
  obtain ⟨v, hstep4⟩ := parse_descLine_step
    (dictSet (dictSet [] strCountKey (natToChars doc.stringCount)) textCountKey
      (natToChars doc.textCount)) [] none doc.description hdescstrip
  refine ⟨v, ?_⟩
  set d3 := dictSet (dictSet (dictSet [] strCountKey (natToChars doc.stringCount))
    textCountKey (natToChars doc.textCount)) "FILE_DESCRIPTION".data v with hd3
  have hblank : parseTxtStep ⟨d3, [], some Sect.header, none⟩ [] =
      some ⟨d3, [], some Sect.header, none⟩ := rfl
  obtain ⟨sec', ci', hsecs⟩ := parse_render_sections doc.strings d3 [] (some Sect.header)
    none hgood
  unfold parse_txt
  rw [renderDoc_lines doc hdescnl]
  rw [List.foldlM_cons, hstep1, optionBind_some, List.foldlM_cons, hstep2, optionBind_some,
    List.foldlM_cons, hstep3, optionBind_some, List.foldlM_cons, hstep4, optionBind_some,
    List.foldlM_cons, hblank, optionBind_some]
  simp only [List.length_nil, Nat.zero_add] at hsecs
  rw [hsecs]
  simp

/-! ## Index patch loop -/

theorem writeLE32_length (l : List Nat) (p v : Nat) : (writeLE32 l p v).length = l.length := by
  simp [writeLE32]

theorem getD_writeLE32_out (l : List Nat) (p v q : Nat) (h : q < p ∨ p + 4 ≤ q) :
    (writeLE32 l p v).getD q 0 = l.getD q 0 := by
  unfold writeLE32
  rw [List.getD_eq_getElem?_getD, List.getD_eq_getElem?_getD,
    List.getElem?_set_ne (by omega), List.getElem?_set_ne (by omega),
    List.getElem?_set_ne (by omega), List.getElem?_set_ne (by omega)]

theorem getD_set_eq (l : List Nat) (p v : Nat) (h : p < l.length) :
    (l.set p v).getD p 0 = v := by
  rw [List.getD_eq_getElem?_getD, List.getElem?_set_eq_of_lt v h]
  rfl

theorem readLE32_writeLE32 (l : List Nat) (p v : Nat) (hp : p + 4 ≤ l.length)
    (hv : v < 2 ^ 32) : readLE32 (writeLE32 l p v) p = v := by
  have hlen0 : p < l.length := by omega
  have b0 : (writeLE32 l p v).getD p 0 = v % 256 := by
    unfold writeLE32
    rw [List.getD_eq_getElem?_getD, List.getElem?_set_ne (by omega),
      List.getElem?_set_ne (by omega), List.getElem?_set_ne (by omega),
      ← List.getD_eq_getElem?_getD]
    exact getD_set_eq l p _ hlen0
  have b1 : (writeLE32 l p v).getD (p + 1) 0 = v / 256 % 256 := by
    unfold writeLE32
    rw [List.getD_eq_getElem?_getD, List.getElem?_set_ne (by omega),
      List.getElem?_set_ne (by omega), ← List.getD_eq_getElem?_getD]
    exact getD_set_eq _ (p + 1) _ (by simp; omega)
  have b2 : (writeLE32 l p v).getD (p + 2) 0 = v / 65536 % 256 := by
    unfold writeLE32
    rw [List.getD_eq_getElem?_getD, List.getElem?_set_ne (by omega),
      ← List.getD_eq_getElem?_getD]
    exact getD_set_eq _ (p + 2) _ (by simp; omega)
  have b3 : (writeLE32 l p v).getD (p + 3) 0 = v / 16777216 % 256 := by
    unfold writeLE32
    exact getD_set_eq _ (p + 3) _ (by simp; omega)
  unfold readLE32 readByte
  rw [b0, b1, b2, b3]
  omega

theorem sumTo_zero (lens : List Nat) : sumTo lens 0 = 0 := rfl

theorem sumTo_succ_of_get (lens : List Nat) (i : Nat) (len : Nat)
    (h : lens.get? i = some len) : sumTo lens (i + 1) = sumTo lens i + len := by
  unfold sumTo
  rw [List.get?_eq_getElem?] at h
  rw [List.take_succ, h]
  simp

theorem patchIndexGo_succ (lens : List Nat) (s0 : Nat) (idx : List Nat) (i off r : Nat) :
    patchIndexGo lens s0 idx i off (r + 1) =
      if s0 + i * 8 + 8 > idx.length then none
      else
        match lens.get? i with
        | none => none
        | some len =>
          if off ≥ 2 ^ 32 ∨ len ≥ 2 ^ 32 then none
          else
            patchIndexGo lens s0
              (writeLE32 (writeLE32 idx (s0 + i * 8) off) (s0 + i * 8 + 4) len)
              (i + 1) (off + len) r := rfl

theorem patchIndexGo_le_length (lens : List Nat) (s0 : Nat) :
    ∀ (r i off : Nat) (idx idx' : List Nat),
      patchIndexGo lens s0 idx i off (r + 1) = some idx' → i + r + 1 ≤ lens.length := by
  intro r
  induction r with
  | zero =>
    intro i off idx idx' h
    rw [patchIndexGo_succ] at h
    by_cases hc1 : s0 + i * 8 + 8 > idx.length
    · rw [if_pos hc1] at h; exact Option.noConfusion h
    · rw [if_neg hc1] at h
      rcases hg : lens.get? i with _ | len
      · simp only [hg] at h
        exact Option.noConfusion h
      · have hi : i < lens.length := by
          by_contra hc
          rw [List.get?_eq_getElem?, List.getElem?_eq_none (by omega)] at hg
          exact Option.noConfusion hg
        omega
  | succ r ih =>
    intro i off idx idx' h
    rw [patchIndexGo_succ] at h
    by_cases hc1 : s0 + i * 8 + 8 > idx.length
    · rw [if_pos hc1] at h; exact Option.noConfusion h
    · rw [if_neg hc1] at h
      rcases hg : lens.get? i with _ | len
      · simp only [hg] at h
        exact Option.noConfusion h
      · simp only [hg] at h
        by_cases hc2 : off ≥ 2 ^ 32 ∨ len ≥ 2 ^ 32
        · rw [if_pos hc2] at h; exact Option.noConfusion h
        · rw [if_neg hc2] at h
          have := ih (i + 1) _ _ _ h
          omega

/-- Full characterisation of a successful run of the index-patching loop:
the buffer length is preserved, bytes outside the patched entry range are
untouched, and entry `i + j` holds the running offset and the entry length. -/
theorem patchIndexGo_spec (lens : List Nat) (s0 : Nat) :
    ∀ (r i off : Nat) (idx idx' : List Nat),
      patchIndexGo lens s0 idx i off r = some idx' →
      idx'.length = idx.length ∧
      (∀ q, q < s0 + 8 * i ∨ s0 + 8 * (i + r) ≤ q → idx'.getD q 0 = idx.getD q 0) ∧
      (∀ j, j < r →
        readLE32 idx' (s0 + 8 * (i + j)) = off + sumTo (lens.drop i) j ∧
        readLE32 idx' (s0 + 8 * (i + j) + 4) = lens.getD (i + j) 0) := by
  intro r
  induction r with
  | zero =>
    intro i off idx idx' h
    have he : idx' = idx := by
      unfold patchIndexGo at h
      exact (Option.some.inj h).symm
    subst he
    exact ⟨rfl, fun q _ => rfl, fun j hj => absurd hj (by omega)⟩
  | succ r ih =>
    intro i off idx idx' h
    rw [patchIndexGo_succ] at h
    by_cases hc1 : s0 + i * 8 + 8 > idx.length
    · rw [if_pos hc1] at h; exact Option.noConfusion h
    · rw [if_neg hc1] at h
      rcases hg : lens.get? i with _ | len
      · simp only [hg] at h
        exact Option.noConfusion h
      · simp only [hg] at h
        by_cases hc2 : off ≥ 2 ^ 32 ∨ len ≥ 2 ^ 32
        · rw [if_pos hc2] at h; exact Option.noConfusion h
        · rw [if_neg hc2] at h
          push_neg at hc2
          have hlen' : s0 + i * 8 + 8 ≤ idx.length := by omega
          set idx2 := writeLE32 (writeLE32 idx (s0 + i * 8) off) (s0 + i * 8 + 4) len
            with hidx2
          obtain ⟨ihlen, ihout, ihent⟩ := ih (i + 1) (off + len) idx2 idx' h
          have hlen2 : idx2.length = idx.length := by
            rw [hidx2, writeLE32_length, writeLE32_length]
          have hout2 : ∀ q, q < s0 + 8 * i ∨ s0 + 8 * i + 8 ≤ q →
              idx2.getD q 0 = idx.getD q 0 := by
            intro q hq
            rw [hidx2, getD_writeLE32_out _ _ _ _ (by omega),
              getD_writeLE32_out _ _ _ _ (by omega)]
          refine ⟨by rw [ihlen, hlen2], ?_, ?_⟩
          · intro q hq
            rw [ihout q (by omega), hout2 q (by omega)]
          · intro j hj
            cases j with
            | zero =>
              have hinner : ∀ q, q < s0 + 8 * (i + 1) → idx'.getD q 0 = idx2.getD q 0 :=
                fun q hq => ihout q (Or.inl hq)
              have hr1 : readLE32 idx' (s0 + 8 * (i + 0)) = readLE32 idx2 (s0 + 8 * i) := by
                unfold readLE32 readByte
                rw [hinner _ (by omega), hinner _ (by omega), hinner _ (by omega),
                  hinner _ (by omega)]
                simp
              have hr2 : readLE32 idx' (s0 + 8 * (i + 0) + 4) =
                  readLE32 idx2 (s0 + 8 * i + 4) := by
                unfold readLE32 readByte
                rw [hinner _ (by omega), hinner _ (by omega), hinner _ (by omega),
                  hinner _ (by omega)]
                simp
              have hv2 : readLE32 idx2 (s0 + 8 * i + 4) = len := by
                rw [hidx2]
                have he2 : s0 + 8 * i + 4 = s0 + i * 8 + 4 := by ring
                rw [he2]
                exact readLE32_writeLE32 _ _ _ (by rw [writeLE32_length]; omega) (by omega)
              have hv1 : readLE32 idx2 (s0 + 8 * i) = off := by
                have he3 : s0 + 8 * i = s0 + i * 8 := by ring
                rw [he3, hidx2]
                have hb : ∀ q, q < s0 + i * 8 + 4 →
                    (writeLE32 (writeLE32 idx (s0 + i * 8) off) (s0 + i * 8 + 4) len).getD q 0 =
                      (writeLE32 idx (s0 + i * 8) off).getD q 0 := by
                  intro q hq
                  exact getD_writeLE32_out _ _ _ _ (by omega)
                unfold readLE32 readByte
                rw [hb _ (by omega), hb _ (by omega), hb _ (by omega), hb _ (by omega)]
                have hrd := readLE32_writeLE32 idx (s0 + i * 8) off (by omega) (by omega)
                unfold readLE32 readByte at hrd
                omega
              constructor
              · rw [hr1, hv1, sumTo_zero]
                omega
              · rw [hr2, hv2]
                rw [List.getD_eq_getElem?_getD]
                simp only [Nat.add_zero]
                rw [List.get?_eq_getElem?] at hg
                rw [hg]
                rfl
            | succ j' =>
              have hj' : j' < r := by omega
              obtain ⟨e1, e2⟩ := ihent j' hj'
              have hip : i + (j' + 1) = i + 1 + j' := by omega
              have hi : i < lens.length := by
                by_contra hc
                rw [List.get?_eq_getElem?, List.getElem?_eq_none (by omega)] at hg
                exact Option.noConfusion hg
              have hdrop : lens.drop i = len :: lens.drop (i + 1) := by
                rw [List.get?_eq_getElem?] at hg
                rw [List.getElem?_eq_getElem hi] at hg
                have hgl : lens[i] = len := by simpa using hg
                rw [List.drop_eq_getElem_cons hi, hgl]
              have hsum : sumTo (lens.drop i) (j' + 1) =
                  len + sumTo (lens.drop (i + 1)) j' := by
                rw [hdrop]
                unfold sumTo
                rw [List.take_succ_cons]
                simp
              constructor
              · rw [hip, e1, hsum]
                omega
              · rw [hip]
                exact e2

/-! ## Slicing the rebuilt string region -/

theorem readAt_append_right_pos (A B : List Nat) (k L : Nat) :
    readAt (A ++ B) (A.length + k) L = readAt B k L := by
  unfold readAt
  rw [List.drop_append]

theorem readAt_append_inner (A B : List Nat) (k L : Nat) (h : k + L ≤ A.length) :
    readAt (A ++ B) k L = readAt A k L := by
  unfold readAt
  rw [List.drop_append_of_le_length (by omega)]
  rw [List.take_append_of_le_length (by simp; omega)]

theorem flatten_slice (ls : List (List Nat)) :
    ∀ j, readAt ls.flatten (sumTo (ls.map List.length) j) ((ls.getD j []).length) =
      ls.getD j [] := by
  induction ls with
  | nil =>
    intro j
    show readAt [] _ _ = ([] : List (List Nat)).getD j []
    unfold readAt
    simp [List.getD]
  | cons e rest ih =>
    intro j
    cases j with
    | zero =>
      show readAt ((e :: rest).flatten) 0 e.length = e
      rw [List.flatten_cons]
      unfold readAt
      rw [List.drop_zero, List.take_append_of_le_length (le_refl e.length)]
      exact List.take_length e
    | succ j' =>
      have hsum : sumTo ((e :: rest).map List.length) (j' + 1) =
          e.length + sumTo (rest.map List.length) j' := by
        unfold sumTo
        rw [List.map_cons, List.take_succ_cons]
        simp
      have hget : ((e :: rest).getD (j' + 1) []) = rest.getD j' [] := by
        simp [List.getD]
      rw [hsum, hget, List.flatten_cons, readAt_append_right_pos]
      exact ih j'

/-! ## Extractor lemmas -/

theorem decodeStringData_eq (data : List Nat) :
    decodeStringData data = decodeCp932Replace (rstripNul data) := rfl

/-- Decoding one re-encoded string recovers it exactly, for ASCII content with
no trailing NUL character. -/
theorem decode_encStr (s : List Char) (hascii : ∀ c ∈ s, c.toNat < 128)
    (hlast : s.getLast? ≠ some (Char.ofNat 0)) :
    decodeStringData (encStr s) = s := by
  rw [decodeStringData_eq]
  unfold encStr
  rw [encodeCp932Replace_ascii s hascii, rstripNul_append_zero]
  rw [rstripNul_eq_self_of _ ?hz]
  · exact decode_encode_ascii s hascii
  case hz =>
    intro x hx
    rw [List.getLast?_map] at hx
    intro hx0
    subst hx0
    rcases hgl : s.getLast? with _ | c
    · rw [hgl] at hx; exact Option.noConfusion hx
    · rw [hgl] at hx
      have hc : c.toNat = 0 := by simpa using hx
      have : c = Char.ofNat 0 := by
        rw [← Char.ofNat_toNat c, hc]
      exact hlast (by rw [hgl, this])

theorem extractStringsGo_succ (bs idx : List Nat) (cc base i r : Nat) :
    extractStringsGo bs idx cc base i (r + 1) =
      if (cc + i) * 8 + 8 > idx.length then []
      else
        decodeStringData (readAt bs (base + readLE32 idx ((cc + i) * 8))
            (readLE32 idx ((cc + i) * 8 + 4))) ::
          extractStringsGo bs idx cc base (i + 1) r := rfl

theorem extractStringsGo_length (bs idx : List Nat) (cc base : Nat) :
    ∀ (r i : Nat), (cc + i + r) * 8 ≤ idx.length →
      (extractStringsGo bs idx cc base i r).length = r := by
  intro r
  induction r with
  | zero => intro i _; rfl
  | succ r ih =>
    intro i hle
    rw [extractStringsGo_succ, if_neg (by omega)]
    simp only [List.length_cons]
    rw [ih (i + 1) (by omega)]

/-- When the index entries and the target bytes line up with a list of encoded
strings, the extraction loop decodes exactly those strings. -/
theorem extractStringsGo_map (bs idx : List Nat) (cc base : Nat) (encs : List (List Nat))
    (hstart : ∀ j, j < encs.length →
      readLE32 idx ((cc + j) * 8) = sumTo (encs.map List.length) j)
    (hlen : ∀ j, j < encs.length →
      readLE32 idx ((cc + j) * 8 + 4) = (encs.getD j []).length)
    (hbytes : ∀ j, j < encs.length →
      readAt bs (base + sumTo (encs.map List.length) j) ((encs.getD j []).length) =
        encs.getD j [])
    (hidxlen : (cc + encs.length) * 8 ≤ idx.length) :
    ∀ (r i : Nat), i + r = encs.length →
      extractStringsGo bs idx cc base i r =
        ((encs.drop i).take r).map decodeStringData := by
  intro r
  induction r with
  | zero => intro i _; simp [extractStringsGo]
  | succ r ih =>
    intro i hir
    have hi : i < encs.length := by omega
    rw [extractStringsGo_succ, if_neg (by omega)]
    rw [hstart i hi, hlen i hi, hbytes i hi, ih (i + 1) (by omega)]
    rw [List.drop_eq_getElem_cons hi, List.take_succ_cons, List.map_cons]
    congr 1
    rw [List.getD_eq_getElem?_getD, List.getElem?_eq_getElem hi]
    rfl

/-- Inversion of a successful extraction. -/
theorem extract_scw_file_some (bs : List Nat) (doc : ExtractedDoc)
    (h : extract_scw_file bs = some doc) :
    rstripNul (bs.take 16) = magicBytes ∧
    readLE32 bs 0x40 ≠ 0 ∧
    (readAt bs FileHeadLen (indexSizeOf bs)).length = indexSizeOf bs ∧
    doc.stringCount = readLE32 bs 0x28 ∧
    doc.textCount = readLE32 bs 0x40 ∧
    doc.strings = extractStringsGo bs (readAt bs FileHeadLen (indexSizeOf bs))
      (readLE32 bs 0x24) (FileHeadLen + indexSizeOf bs + readLE32 bs 0x30) 0
      (readLE32 bs 0x28) := by
  simp only [extract_scw_file] at h
  by_cases h1 : rstripNul (bs.take 16) ≠ magicBytes
  · rw [if_pos h1] at h; exact Option.noConfusion h
  · rw [if_neg h1] at h
    push_neg at h1
    by_cases h2 : readLE32 bs 0x40 = 0
    · rw [if_pos h2] at h; exact Option.noConfusion h
    · rw [if_neg h2] at h
      by_cases h3 : (readAt bs FileHeadLen
          ((readLE32 bs 0x24 + readLE32 bs 0x28 + readLE32 bs 0x2C) * 8)).length ≠
          (readLE32 bs 0x24 + readLE32 bs 0x28 + readLE32 bs 0x2C) * 8
      · rw [if_pos h3] at h; exact Option.noConfusion h
      · rw [if_neg h3] at h
        push_neg at h3
        have hd := Option.some.inj h
        refine ⟨h1, h2, h3, ?_, ?_, ?_⟩
        · rw [← hd]
        · rw [← hd]
        · rw [← hd]
          rfl

/-- Construction of a successful extraction. -/
theorem extract_scw_file_mk (bs : List Nat)
    (hmagic : rstripNul (bs.take 16) = magicBytes)
    (htc : readLE32 bs 0x40 ≠ 0)
    (hidx : (readAt bs FileHeadLen (indexSizeOf bs)).length = indexSizeOf bs) :
    extract_scw_file bs = some ⟨readLE32 bs 0x28, readLE32 bs 0x40,
      stripChars (decodeCp932Ignore ((readAt bs 0xC4 0x100).takeWhile (fun b => b ≠ 0))),
      extractStringsGo bs (readAt bs FileHeadLen (indexSizeOf bs)) (readLE32 bs 0x24)
        (FileHeadLen + indexSizeOf bs + readLE32 bs 0x30) 0 (readLE32 bs 0x28)⟩ := by
  have hidx' : (readAt bs FileHeadLen
      ((readLE32 bs 0x24 + readLE32 bs 0x28 + readLE32 bs 0x2C) * 8)).length =
      (readLE32 bs 0x24 + readLE32 bs 0x28 + readLE32 bs 0x2C) * 8 := hidx
  simp only [extract_scw_file]
  rw [if_neg (by simp [hmagic]), if_neg htc, if_neg (by simp [hidx'])]
  rfl

/-! ## Writer inversion -/

/-- Inversion of a successful rebuild: every validation passed and the output
is the repacked header followed by the recomposed content region. -/
theorem process_scw_some_inv (bs : List Nat) (lines : List (List Char)) (out : List Nat)
    (h : process_scw bs lines = some out) :
    ∃ d ss new_index,
      parse_txt lines = some (d, ss) ∧ d ≠ [] ∧ ss ≠ [] ∧
      declaredInt d strCountKey = some (readLE32 bs 0x28 : Int) ∧
      declaredInt d textCountKey = some (readLE32 bs 0x40 : Int) ∧
      patchIndexGo ((ss.map encStr).map List.length) (readLE32 bs 0x24 * 8)
        (indexRegionOf bs) 0 0 (readLE32 bs 0x28) = some new_index ∧
      ¬ bs.length < FileHeadLen ∧
      (new_index ++ cmdRegionOf bs ++ (ss.map encStr).flatten ++ addonRegionOf bs).length <
        2 ^ 31 ∧
      ((ss.map encStr).flatten).length < 2 ^ 31 ∧
      out = packHeader (bs.take 16) (readLE32 bs 0x10) (readLE32 bs 0x14)
          (new_index ++ cmdRegionOf bs ++ (ss.map encStr).flatten ++ addonRegionOf bs).length
          (readLE32 bs 0x1C) (readLE32 bs 0x20) (readLE32 bs 0x24)
          (readLE32 bs 0x28) (readLE32 bs 0x2C) (readLE32 bs 0x30)
          ((ss.map encStr).flatten).length (readLE32 bs 0x38)
          (readLE32 bs 0x3C) (readLE32 bs 0x40)
          (readAt bs 0x44 Pad2Len) (readAt bs 0xC4 0x100) ++
          (new_index ++ cmdRegionOf bs ++ (ss.map encStr).flatten ++ addonRegionOf bs) := by
  unfold process_scw at h
  by_cases h1 : bs.length < FileHeadLen
  · rw [if_pos h1] at h; exact Option.noConfusion h
  · rw [if_neg h1] at h
    rcases hp : parse_txt lines with _ | ⟨d, ss⟩
    · simp only [hp] at h
      exact Option.noConfusion h
    · simp only [hp] at h
      by_cases h2 : d = [] ∨ ss = []
      · rw [if_pos h2] at h; exact Option.noConfusion h
      · rw [if_neg h2] at h
        push_neg at h2
        rcases hsc : declaredInt d strCountKey with _ | scx
        · simp only [hsc] at h
          exact Option.noConfusion h
        · rcases htc : declaredInt d textCountKey with _ | tcx
          · simp only [hsc, htc] at h
            exact Option.noConfusion h
          · simp only [hsc, htc] at h
            by_cases h3 : scx ≠ (readLE32 bs 0x28 : Int) ∨ tcx ≠ (readLE32 bs 0x40 : Int)
            · rw [if_pos h3] at h; exact Option.noConfusion h
            · rw [if_neg h3] at h
              push_neg at h3
              rcases hpatch : patchIndexGo ((ss.map encStr).map List.length)
                  (readLE32 bs 0x24 * 8) (indexRegionOf bs) 0 0 (readLE32 bs 0x28) with
                _ | new_index
              · simp only [hpatch] at h
                exact Option.noConfusion h
              · simp only [hpatch] at h
                by_cases h4 : (new_index ++ cmdRegionOf bs ++ (ss.map encStr).flatten ++
                      addonRegionOf bs).length ≥ 2 ^ 31 ∨
                    ((ss.map encStr).flatten).length ≥ 2 ^ 31
                · rw [if_pos h4] at h; exact Option.noConfusion h
                · rw [if_neg h4] at h
                  push_neg at h4
                  refine ⟨d, ss, new_index, rfl, h2.1, h2.2, ?_, ?_, hpatch, h1, h4.1, h4.2,
                    (Option.some.inj h).symm⟩
                  · rw [hsc, h3.1]
                  · rw [htc, h3.2]

/-! ## Shared helpers for the claim proofs -/

theorem dictSet_ne_nil (d : Dict) (k v : List Char) : dictSet d k v ≠ [] := by
  cases d with
  | nil => simp [dictSet]
  | cons p rest =>
    obtain ⟨k', v'⟩ := p
    unfold dictSet
    by_cases h : k' = k
    · rw [if_pos h]; simp
    · rw [if_neg h]; simp

theorem renderDict_eq (v1 v2 v3 : List Char) :
    dictSet (dictSet (dictSet [] strCountKey v1) textCountKey v2)
        "FILE_DESCRIPTION".data v3 =
      [(strCountKey, v1), (textCountKey, v2), ("FILE_DESCRIPTION".data, v3)] := by
  have e1 : dictSet ([] : Dict) strCountKey v1 = [(strCountKey, v1)] := rfl
  have e2 : dictSet [(strCountKey, v1)] textCountKey v2 =
      [(strCountKey, v1), (textCountKey, v2)] := by
    show (if strCountKey = textCountKey then (textCountKey, v2) :: []
        else (strCountKey, v1) :: dictSet [] textCountKey v2) =
      [(strCountKey, v1), (textCountKey, v2)]
    rw [if_neg (by decide)]
    rfl
  have e3 : dictSet [(strCountKey, v1), (textCountKey, v2)] "FILE_DESCRIPTION".data v3 =
      [(strCountKey, v1), (textCountKey, v2), ("FILE_DESCRIPTION".data, v3)] := by
    show (if strCountKey = "FILE_DESCRIPTION".data
        then ("FILE_DESCRIPTION".data, v3) :: [(textCountKey, v2)]
        else (strCountKey, v1) ::
          dictSet [(textCountKey, v2)] "FILE_DESCRIPTION".data v3) =
      [(strCountKey, v1), (textCountKey, v2), ("FILE_DESCRIPTION".data, v3)]
    rw [if_neg (by decide)]
    show (strCountKey, v1) :: (if textCountKey = "FILE_DESCRIPTION".data
        then ("FILE_DESCRIPTION".data, v3) :: []
        else (textCountKey, v2) :: dictSet [] "FILE_DESCRIPTION".data v3) = _
    rw [if_neg (by decide)]
    rfl
  rw [e1, e2, e3]

theorem renderDict_strCount (v1 v2 v3 : List Char) :
    dictGet? (dictSet (dictSet (dictSet [] strCountKey v1) textCountKey v2)
      "FILE_DESCRIPTION".data v3) strCountKey = some v1 := by
  rw [renderDict_eq]
  unfold dictGet?
  rw [List.find?_cons_of_pos _ (by simp)]
  rfl

theorem renderDict_textCount (v1 v2 v3 : List Char) :
    dictGet? (dictSet (dictSet (dictSet [] strCountKey v1) textCountKey v2)
      "FILE_DESCRIPTION".data v3) textCountKey = some v2 := by
  rw [renderDict_eq]
  unfold dictGet?
  rw [List.find?_cons_of_neg _ ?hne, List.find?_cons_of_pos _ (by simp)]
  case hne =>
    intro hc
    simp only [decide_eq_true_eq] at hc
    exact absurd hc (by decide)
  rfl

theorem content_length_of_rc (bs : List Nat) (hrc : RegionComplete bs) :
    (readAt bs FileHeadLen (readLE32 bs 0x18)).length = readLE32 bs 0x18 := by
  obtain ⟨h1, _⟩ := hrc
  unfold readAt
  simp
  omega

theorem indexRegionOf_length (bs : List Nat) (hrc : RegionComplete bs) :
    (indexRegionOf bs).length = indexSizeOf bs := by
  have hcl := content_length_of_rc bs hrc
  obtain ⟨h1, h2⟩ := hrc
  unfold indexRegionOf splitRegions
  simp only [List.length_take]
  rw [hcl]
  omega

theorem cmdRegionOf_length (bs : List Nat) (hrc : RegionComplete bs) :
    (cmdRegionOf bs).length = readLE32 bs 0x30 := by
  have hcl := content_length_of_rc bs hrc
  obtain ⟨h1, h2⟩ := hrc
  unfold cmdRegionOf splitRegions
  simp only [List.length_drop, List.length_take]
  rw [hcl]
  omega

theorem addonRegionOf_length (bs : List Nat) (hrc : RegionComplete bs) :
    (addonRegionOf bs).length = readLE32 bs 0x38 := by
  have hcl := content_length_of_rc bs hrc
  obtain ⟨h1, h2⟩ := hrc
  unfold addonRegionOf splitRegions
  simp only [List.length_drop, List.length_take]
  rw [hcl]
  omega

theorem sumTo_le_sum (lens : List Nat) (j : Nat) : sumTo lens j ≤ lens.sum := by
  unfold sumTo
  have := List.sum_take_add_sum_drop lens j
  omega

theorem sumTo_add_getD_le (lens : List Nat) (j : Nat) (hj : j < lens.length) :
    sumTo lens j + lens.getD j 0 ≤ lens.sum := by
  have hg : lens.get? j = some (lens.getD j 0) := by
    rw [List.get?_eq_getElem?, List.getD_eq_getElem?_getD, List.getElem?_eq_getElem hj]
    rfl
  have := sumTo_succ_of_get lens j _ hg
  have h2 := sumTo_le_sum lens (j + 1)
  omega

theorem getD_map_length (encs : List (List Nat)) (j : Nat) (hj : j < encs.length) :
    (encs.map List.length).getD j 0 = (encs.getD j []).length := by
  rw [List.getD_eq_getElem?_getD, List.getD_eq_getElem?_getD, List.getElem?_map,
    List.getElem?_eq_getElem hj]
  rfl

/-- The patch loop succeeds whenever the entries fit in the index buffer, the
string list is long enough, and the offsets stay below `2^32`. -/
theorem patchIndexGo_succeeds (lens : List Nat) (s0 : Nat) :
    ∀ (r i off : Nat) (idx : List Nat),
      s0 + (i + r) * 8 ≤ idx.length →
      i + r ≤ lens.length →
      off + sumTo (lens.drop i) r < 2 ^ 32 →
      ∃ idx', patchIndexGo lens s0 idx i off r = some idx' := by
  intro r
  induction r with
  | zero => intro i off idx _ _ _; exact ⟨idx, rfl⟩
  | succ r ih =>
    intro i off idx hidx hlen hfit
    have hi : i < lens.length := by omega
    have hg : lens.get? i = some (lens.getD i 0) := by
      rw [List.get?_eq_getElem?, List.getD_eq_getElem?_getD, List.getElem?_eq_getElem hi]
      rfl
    have hdrop : lens.drop i = lens.getD i 0 :: lens.drop (i + 1) := by
      rw [List.drop_eq_getElem_cons hi]
      congr 1
      rw [List.getD_eq_getElem?_getD, List.getElem?_eq_getElem hi]
      rfl
    have hsum : sumTo (lens.drop i) (r + 1) =
        lens.getD i 0 + sumTo (lens.drop (i + 1)) r := by
      rw [hdrop]
      unfold sumTo
      rw [List.take_succ_cons]
      simp
    rw [patchIndexGo_succ, if_neg (by omega)]
    simp only [hg]
    rw [if_neg (by push_neg; constructor <;> omega)]
    apply ih (i + 1) (off + lens.getD i 0)
    · rw [writeLE32_length, writeLE32_length]; omega
    · omega
    · omega

/-! ## Claims -/

/-- Claim C7: decoding the index table expects exactly
`8 * (commandCount + stringCount + addonCount)` bytes; when fewer bytes are
available past the header, the extraction fails and no text document is
produced. -/
theorem c7_truncated_index_fails (bs : List Nat)
    (h : bs.length - FileHeadLen < indexSizeOf bs) :
    extract_scw_file bs = none := by
  simp only [extract_scw_file]
  by_cases h1 : rstripNul (bs.take 16) ≠ magicBytes
  · rw [if_pos h1]
  · rw [if_neg h1]
    by_cases h2 : readLE32 bs 0x40 = 0
    · rw [if_pos h2]
    · rw [if_neg h2]
      rw [if_pos ?hlen]
      case hlen =>
        have hl : (readAt bs FileHeadLen
            ((readLE32 bs 0x24 + readLE32 bs 0x28 + readLE32 bs 0x2C) * 8)).length =
            min ((readLE32 bs 0x24 + readLE32 bs 0x28 + readLE32 bs 0x2C) * 8)
              (bs.length - FileHeadLen) := by
          unfold readAt
          simp
        rw [hl]
        have hsz : indexSizeOf bs =
            (readLE32 bs 0x24 + readLE32 bs 0x28 + readLE32 bs 0x2C) * 8 := rfl
        rw [hsz] at h
        omega

/-- Witness for C7: a concrete container whose header declares five string
entries but whose file ends right after the header. -/
theorem c7_truncated_index_fails_witness :
    cexTrunc.length - FileHeadLen < indexSizeOf cexTrunc ∧
      extract_scw_file cexTrunc = none :=
  ⟨by decide, c7_truncated_index_fails cexTrunc (by decide)⟩

/-- Claim C10: string extraction never fails on undecodable bytes — the
`errors='replace'` decode is total, so the `<DECODE_ERROR>` fallback branch is
never taken and the decoder yields the replace-decoded string of every slice;
consequently a successful extraction decodes a string for every index entry it
reads, one per declared string-count slot. -/
theorem c10_decode_total (data : List Nat) (bs : List Nat) (doc : ExtractedDoc)
    (h : extract_scw_file bs = some doc) :
    tryDecodeStringData data ≠ none ∧
      decodeStringData data = decodeCp932Replace (rstripNul data) ∧
      doc.strings.length = doc.stringCount := by
  refine ⟨by unfold tryDecodeStringData; simp, rfl, ?_⟩
  obtain ⟨_, _, hidx, hsc, _, hstr⟩ := extract_scw_file_some bs doc h
  rw [hstr, hsc]
  apply extractStringsGo_length
  rw [hidx]
  unfold indexSizeOf
  omega

/-- Witness for C10: the scenario container extracts exactly its two declared
strings, and decoding is the replace-decode of the NUL-stripped slice. -/
theorem c10_decode_total_witness :
    tryDecodeStringData [0xFF, 0x41] ≠ none ∧
      decodeStringData [0xFF, 0x41] = decodeCp932Replace (rstripNul [0xFF, 0x41]) ∧
      cexScenarioDoc.strings.length = cexScenarioDoc.stringCount :=
  c10_decode_total [0xFF, 0x41] cexScenario cexScenarioDoc (by decide)

theorem extractStringsGo_get (bs idx : List Nat) (cc base : Nat) :
    ∀ (r i j : Nat) (v : List Char),
      (extractStringsGo bs idx cc base i r).get? j = some v →
      v = decodeStringData (readAt bs (base + readLE32 idx ((cc + (i + j)) * 8))
            (readLE32 idx ((cc + (i + j)) * 8 + 4))) := by
  intro r
  induction r with
  | zero =>
    intro i j v h
    simp [extractStringsGo] at h
  | succ r ih =>
    intro i j v h
    rw [extractStringsGo_succ] at h
    by_cases hc : (cc + i) * 8 + 8 > idx.length
    · rw [if_pos hc] at h
      simp at h
    · rw [if_neg hc] at h
      cases j with
      | zero =>
        have hv : v = decodeStringData (readAt bs (base + readLE32 idx ((cc + i) * 8))
            (readLE32 idx ((cc + i) * 8 + 4))) := by
          simpa using h.symm
        simpa using hv
      | succ j' =>
        have h' : (extractStringsGo bs idx cc base (i + 1) r).get? j' = some v := by
          simpa using h
        have := ih (i + 1) j' v h'
        rw [this]
        have he : i + 1 + j' = i + (j' + 1) := by omega
        rw [he]

/-- Claim C8: the decoder locates string-group entry `i` at the absolute byte
position `headerLength + indexTableSize + commandSize + start`, reads `length`
bytes, strips the trailing NULs and locale-decodes the rest. -/
theorem c8_string_location (bs : List Nat) (doc : ExtractedDoc) (i : Nat)
    (h : extract_scw_file bs = some doc) (hi : i < doc.strings.length) :
    doc.strings.get? i = some (decodeCp932Replace (rstripNul (readAt bs
      (FileHeadLen + indexSizeOf bs + readLE32 bs 0x30 +
        readLE32 (readAt bs FileHeadLen (indexSizeOf bs)) ((readLE32 bs 0x24 + i) * 8))
      (readLE32 (readAt bs FileHeadLen (indexSizeOf bs)) ((readLE32 bs 0x24 + i) * 8 + 4))))) := by
  obtain ⟨_, _, _, _, _, hstr⟩ := extract_scw_file_some bs doc h
  have hg : ∃ v, doc.strings.get? i = some v := by
    rw [List.get?_eq_getElem?, List.getElem?_eq_getElem hi]
    exact ⟨_, rfl⟩
  obtain ⟨v, hv⟩ := hg
  have := extractStringsGo_get bs (readAt bs FileHeadLen (indexSizeOf bs)) (readLE32 bs 0x24)
    (FileHeadLen + indexSizeOf bs + readLE32 bs 0x30) (readLE32 bs 0x28) 0 i v
    (by rw [← hstr]; exact hv)
  rw [hv, this]
  rw [decodeStringData_eq]
  have he : 0 + i = i := by omega
  rw [he]

/-- Witness for C8: the spec's scenario — `stringCount = 2`, entries
`[(0,6),(6,6)]` over `"AB\0\0\0\0CD\0\0\0\0"` decode to `["AB","CD"]`, each
located at the documented absolute position. -/
theorem c8_string_location_witness :
    (extract_scw_file cexScenario = some cexScenarioDoc ∧
      cexScenarioDoc.strings = ["AB".data, "CD".data]) ∧
    cexScenarioDoc.strings.get? 0 = some (decodeCp932Replace (rstripNul (readAt cexScenario
      (FileHeadLen + indexSizeOf cexScenario + readLE32 cexScenario 0x30 +
        readLE32 (readAt cexScenario FileHeadLen (indexSizeOf cexScenario))
          ((readLE32 cexScenario 0x24 + 0) * 8))
      (readLE32 (readAt cexScenario FileHeadLen (indexSizeOf cexScenario))
        ((readLE32 cexScenario 0x24 + 0) * 8 + 4))))) ∧
    cexScenarioDoc.strings.get? 1 = some (decodeCp932Replace (rstripNul (readAt cexScenario
      (FileHeadLen + indexSizeOf cexScenario + readLE32 cexScenario 0x30 +
        readLE32 (readAt cexScenario FileHeadLen (indexSizeOf cexScenario))
          ((readLE32 cexScenario 0x24 + 1) * 8))
      (readLE32 (readAt cexScenario FileHeadLen (indexSizeOf cexScenario))
        ((readLE32 cexScenario 0x24 + 1) * 8 + 4))))) :=
  ⟨⟨by decide, by decide⟩,
    c8_string_location cexScenario cexScenarioDoc 0 (by decide) (by decide),
    c8_string_location cexScenario cexScenarioDoc 1 (by decide) (by decide)⟩

/-- Claim C6: while parsing the text document, a section header declaring an
index position `N` with `N ≠ currentCount + 1` (the strictly-increasing,
gap-free, duplicate-free 1-based rule) makes the whole parse fail, producing
no partial string sequence. -/
theorem c6_index_ordering (pre post : List (List Char)) (raw : List Char)
    (st : ParseState) (n : Int)
    (hpre : List.foldlM parseTxtStep initParseState pre = some st)
    (hline : "[Index=".data.isPrefixOf (stripChars raw) = true)
    (hn : parseInt (rstripBy (fun c => c == ']')
      (afterFirst '=' (stripChars raw))) = some n)
    (hbad : n ≠ (st.strings.length : Int) + 1) :
    parse_txt (pre ++ raw :: post) = none := by
  unfold parse_txt
  rw [List.foldlM_append, hpre, optionBind_some, List.foldlM_cons]
  have hstep : parseTxtStep st raw = none := by
    rw [parseTxtStep_eq_line, parseTxtLine_indexTag st _ n hline hn, if_pos hbad]
  rw [hstep]
  rfl

/-- Witness for C6: a document starting at `[Index=2]` is rejected whole. -/
theorem c6_index_ordering_witness :
    List.foldlM parseTxtStep initParseState [] = some initParseState ∧
      parse_txt ([] ++ "[Index=2]".data :: []) = none :=
  ⟨rfl, c6_index_ordering [] [] "[Index=2]".data initParseState 2 rfl (by decide)
    (by decide) (by decide)⟩

theorem foldlM_parse_normalize (lines : List (List Char)) :
    ∀ st, List.foldlM parseTxtStep st lines =
      List.foldlM parseTxtStep st
        ((lines.map stripChars).filter (fun l => !l.isEmpty)) := by
  induction lines with
  | nil => intro st; rfl
  | cons raw rest ih =>
    intro st
    rw [List.map_cons, List.filter_cons]
    by_cases hb : stripChars raw = []
    · have hc : (!(stripChars raw).isEmpty) = false := by rw [hb]; rfl
      rw [hc, if_neg (by simp)]
      rw [List.foldlM_cons]
      have hs : parseTxtStep st raw = some st := by
        rw [parseTxtStep_eq_line, hb]
        rfl
      rw [hs, optionBind_some, ih st]
    · have hc : (!(stripChars raw).isEmpty) = true := by
        cases hsc : stripChars raw with
        | nil => exact absurd hsc hb
        | cons a t => rfl
      rw [hc, if_pos rfl]
      rw [List.foldlM_cons, List.foldlM_cons]
      have hs1 : parseTxtStep st raw = parseTxtLine st (stripChars raw) := rfl
      have hs2 : parseTxtStep st (stripChars raw) = parseTxtLine st (stripChars raw) := by
        rw [parseTxtStep_eq_line, stripChars_idem]
      rw [hs1, hs2]
      rcases hres : parseTxtLine st (stripChars raw) with _ | st'
      · rfl
      · rw [optionBind_some, optionBind_some, ih st']

/-- Claim C9: the parser normalises every line — each line is stripped of
leading and trailing whitespace and blank lines are dropped before any other
processing; a `[`-led line that is neither `[Header]` nor an `[Index=` header
switches to an unrecognised section whose following content lines are
discarded; concretely, a string line beginning with `[` and surrounding
whitespace on a line are not preserved through parsing. -/
theorem c9_line_normalization :
    (∀ lines : List (List Char), parse_txt lines =
        parse_txt ((lines.map stripChars).filter (fun l => !l.isEmpty))) ∧
    (∀ (st : ParseState) (line : List Char), line ≠ [] → line.head? = some '[' →
        line ≠ "[Header]".data → "[Index=".data.isPrefixOf line = false →
        parseTxtLine st line = some { st with currentSection := none }) ∧
    (∀ (d : Dict) (ss : List (List Char)) (ci : Option Int) (line : List Char),
        line ≠ [] → line.head? ≠ some '[' →
        parseTxtLine ⟨d, ss, none, ci⟩ line = some ⟨d, ss, none, ci⟩) ∧
    (parse_txt ["[Header]".data, "STRING_COUNT = 1".data, "[Index=1]".data,
        "[x".data, "y".data]).map (fun p => p.2) = some [[]] ∧
    (parse_txt ["[Index=1]".data, "  a  ".data]).map (fun p => p.2) =
      some ["a".data] := by
  refine ⟨?_, ?_, ?_, by decide, by decide⟩
  · intro lines
    unfold parse_txt
    rw [foldlM_parse_normalize]
  · intro st line hne hhead hh hi
    exact parseTxtLine_unknownTag st line hne hhead hh hi
  · intro d ss ci line hne hhead
    exact parseTxtLine_content_skip _ line hne hhead rfl

/-- Witness for C9: instantiating the normalisation at a concrete padded
document and the unknown-section rules at concrete lines. -/
theorem c9_line_normalization_witness :
    parse_txt ["  [Index=1]  ".data, [], "  a  ".data] =
      parse_txt (((["  [Index=1]  ".data, [], "  a  ".data].map stripChars)).filter
        (fun l => !l.isEmpty)) ∧
    parseTxtLine initParseState "[Unknown]".data =
      some { initParseState with currentSection := none } ∧
    parseTxtLine ⟨[], [], none, none⟩ "y".data = some ⟨[], [], none, none⟩ :=
  ⟨c9_line_normalization.1 _,
    c9_line_normalization.2.1 initParseState "[Unknown]".data (by decide) (by decide)
      (by decide) (by decide),
    c9_line_normalization.2.2.1 [] [] none "y".data (by decide) (by decide)⟩

/-- Claim C5: if the document's declared `STRING_COUNT`/`TEXT_COUNT` differ
from the container header's counts, or the document supplies fewer strings
than `stringCount`, the rebuild fails and no output is produced. -/
theorem c5_count_mismatch (bs : List Nat) (lines : List (List Char)) (d : Dict)
    (ss : List (List Char))
    (hp : parse_txt lines = some (d, ss))
    (hm : declaredInt d strCountKey ≠ some (readLE32 bs 0x28 : Int) ∨
          declaredInt d textCountKey ≠ some (readLE32 bs 0x40 : Int) ∨
          ss.length < readLE32 bs 0x28) :
    process_scw bs lines = none := by
  rcases ho : process_scw bs lines with _ | out
  · rfl
  · exfalso
    obtain ⟨d', ss', newIdx, hp', _, _, hsc', htc', hpatch', _, _, _, _⟩ :=
      process_scw_some_inv bs lines out ho
    rw [hp] at hp'
    have hpe := Option.some.inj hp'
    have hd : d = d' := congrArg Prod.fst hpe
    have hs : ss = ss' := congrArg Prod.snd hpe
    subst hd
    subst hs
    rcases hm with hm | hm | hm
    · exact hm hsc'
    · exact hm htc'
    · rcases hz : readLE32 bs 0x28 with _ | sc'
      · omega
      · rw [hz] at hpatch'
        have := patchIndexGo_le_length _ _ sc' 0 0 _ _ hpatch'
        simp only [List.length_map] at this
        omega

/-- Witness for C5 (the spec's scenario): a document declaring
`STRING_COUNT = 2` but containing only `[Index=1]` aborts the rebuild of a
two-string container with no output. -/
theorem c5_count_mismatch_witness :
    parse_txt docScenario5 = some (doc5Dict, ["hi".data]) ∧
      (["hi".data] : List (List Char)).length < readLE32 cexScenario 0x28 ∧
      process_scw cexScenario docScenario5 = none :=
  ⟨by decide, by decide,
    c5_count_mismatch cexScenario docScenario5 doc5Dict ["hi".data] (by decide)
      (Or.inr (Or.inr (by decide)))⟩

/-- Claim C4 (amended): the region splitter never fails — there is no
overflow check.  It slices with Python's clamping semantics: the four regions
concatenate to the first `indexTableSize + commandSize + stringSize +
addonSize` available content bytes, and each region's length is clamped to
what is available, so oversized declared sizes silently yield truncated
regions. -/
theorem c4_region_splitter_clamps :
    ∀ (content : List Nat) (iS cS sS aS : Nat),
      (splitRegions content iS cS sS aS).1 ++ (splitRegions content iS cS sS aS).2.1 ++
          (splitRegions content iS cS sS aS).2.2.1 ++
          (splitRegions content iS cS sS aS).2.2.2 =
        content.take (iS + cS + sS + aS) ∧
      ((splitRegions content iS cS sS aS).1).length = min iS content.length ∧
      ((splitRegions content iS cS sS aS).2.1).length =
        min (iS + cS) content.length - iS ∧
      ((splitRegions content iS cS sS aS).2.2.1).length =
        min (iS + cS + sS) content.length - (iS + cS) ∧
      ((splitRegions content iS cS sS aS).2.2.2).length =
        min (iS + cS + sS + aS) content.length - (iS + cS + sS) := by
  intro content iS cS sS aS
  have key : ∀ (a b : Nat), a ≤ b →
      content.take a ++ (content.take b).drop a = content.take b := by
    intro a b hab
    have h1 : (content.take b).take a = content.take a := by
      rw [List.take_take, min_eq_left hab]
    rw [← h1, List.take_append_drop]
  refine ⟨?_, ?_, ?_, ?_, ?_⟩
  · show content.take iS ++ (content.take (iS + cS)).drop iS ++
        (content.take (iS + cS + sS)).drop (iS + cS) ++
        (content.take (iS + cS + sS + aS)).drop (iS + cS + sS) =
      content.take (iS + cS + sS + aS)
    rw [key iS (iS + cS) (by omega), key (iS + cS) (iS + cS + sS) (by omega),
      key (iS + cS + sS) (iS + cS + sS + aS) (by omega)]
  · show (content.take iS).length = min iS content.length
    simp
  · show ((content.take (iS + cS)).drop iS).length = min (iS + cS) content.length - iS
    simp
  · show ((content.take (iS + cS + sS)).drop (iS + cS)).length =
      min (iS + cS + sS) content.length - (iS + cS)
    simp
  · show ((content.take (iS + cS + sS + aS)).drop (iS + cS + sS)).length =
      min (iS + cS + sS + aS) content.length - (iS + cS + sS)
    simp

/-- Counterexample for C4 as stated: `cexOverflow` declares region sizes that
exceed the available content bytes; the splitter produces a silently truncated
string region and the rebuild still succeeds — no `RegionOverflowError`-like
failure exists in the code. -/
theorem c4_counterexample :
    indexSizeOf cexOverflow + readLE32 cexOverflow 0x30 + readLE32 cexOverflow 0x34 +
        readLE32 cexOverflow 0x38 >
      (readAt cexOverflow FileHeadLen (readLE32 cexOverflow 0x18)).length ∧
    (strRegionOf cexOverflow).length < readLE32 cexOverflow 0x34 ∧
    (process_scw cexOverflow docOverflow).isSome = true := by
  refine ⟨by decide, by decide, by decide⟩

/-- A successful run of the index-patching loop implies the buffer was long
enough for every patched entry. -/
theorem patchIndexGo_buf_bound (lens : List Nat) (s0 : Nat) :
    ∀ (r i off : Nat) (idx idx' : List Nat),
      patchIndexGo lens s0 idx i off (r + 1) = some idx' →
      s0 + (i + r) * 8 + 8 ≤ idx.length := by
  intro r
  induction r with
  | zero =>
    intro i off idx idx' h
    rw [patchIndexGo_succ] at h
    by_cases hc1 : s0 + i * 8 + 8 > idx.length
    · rw [if_pos hc1] at h; exact Option.noConfusion h
    · omega
  | succ r ih =>
    intro i off idx idx' h
    rw [patchIndexGo_succ] at h
    by_cases hc1 : s0 + i * 8 + 8 > idx.length
    · rw [if_pos hc1] at h; exact Option.noConfusion h
    · rw [if_neg hc1] at h
      rcases hg : lens.get? i with _ | len
      · simp only [hg] at h
        exact Option.noConfusion h
      · simp only [hg] at h
        by_cases hc2 : off ≥ 2 ^ 32 ∨ len ≥ 2 ^ 32
        · rw [if_pos hc2] at h; exact Option.noConfusion h
        · rw [if_neg hc2] at h
          have hb := ih (i + 1) (off + len) _ idx' h
          rw [writeLE32_length, writeLE32_length] at hb
          omega

/-- Claim C3: on a successful rebuild, string-group index entry `i` of the
output container (at absolute position `FileHeadLen + commandCount * 8 + 8 * i`)
has `start` equal to the cumulative encoded byte length of strings `0..i-1`
(so 0 for the first string, making the new string region contiguous and
gapless), and `length` equal to the encoded byte length of string `i`
including its single NUL terminator. -/
theorem c3_index_recompute (bs : List Nat) (lines : List (List Char)) (out : List Nat)
    (d : Dict) (ss : List (List Char)) (i : Nat)
    (h : process_scw bs lines = some out)
    (hp : parse_txt lines = some (d, ss))
    (hi : i < readLE32 bs 0x28) :
    readLE32 out (FileHeadLen + (readLE32 bs 0x24 * 8 + 8 * i)) =
      sumTo ((ss.map encStr).map List.length) i ∧
    readLE32 out (FileHeadLen + (readLE32 bs 0x24 * 8 + 8 * i) + 4) =
      (encStr (ss.getD i [])).length := by
  obtain ⟨d', ss', new_index, hp', hdne, hssne, hscd, htcd, hpatch, hlen452, hfit1, hfit2,
    hout⟩ := process_scw_some_inv bs lines out h
  have hps : (some (d', ss') : Option (Dict × List (List Char))) = some (d, ss) :=
    hp'.symm.trans hp
  injection hps with hpe
  injection hpe with h1 h2
  subst h1
  subst h2
  have hsc1 : readLE32 bs 0x28 - 1 + 1 = readLE32 bs 0x28 := by omega
  have hpatch' : patchIndexGo ((ss'.map encStr).map List.length) (readLE32 bs 0x24 * 8)
      (indexRegionOf bs) 0 0 (readLE32 bs 0x28 - 1 + 1) = some new_index := by
    rw [hsc1]; exact hpatch
  have hbuf := patchIndexGo_buf_bound _ _ _ _ _ _ _ hpatch'
  have hll := patchIndexGo_le_length _ _ _ _ _ _ _ hpatch'
  obtain ⟨hlenpres, -, hent⟩ := patchIndexGo_spec ((ss'.map encStr).map List.length)
    (readLE32 bs 0x24 * 8) (readLE32 bs 0x28) 0 0 (indexRegionOf bs) new_index hpatch
  have hei := hent i hi
  simp only [Nat.zero_add, List.drop_zero] at hei
  have hlensl : ((ss'.map encStr).map List.length).length = ss'.length := by simp
  have hiss : i < ss'.length := by rw [hlensl] at hll; omega
  have hnb : readLE32 bs 0x24 * 8 + 8 * i + 8 ≤ new_index.length := by
    rw [hlenpres]
    omega
  have hbl : 452 ≤ bs.length := by
    have he : FileHeadLen = 452 := rfl
    omega
  have hm : (bs.take 16).length = 16 := by
    rw [List.length_take]; omega
  have hp2 : (readAt bs 0x44 Pad2Len).length = Pad2Len := by
    have he : Pad2Len = 128 := rfl
    simp only [readAt, List.length_take, List.length_drop]
    omega
  have hd2 : (readAt bs 0xC4 0x100).length = 0x100 := by
    simp only [readAt, List.length_take, List.length_drop]
    omega
  subst hout
  refine ⟨?_, ?_⟩
  · rw [readLE32_skip_list FileHeadLen _ _ (packHeader_length hm hp2 hd2),
      List.append_assoc, List.append_assoc,
      readLE32_append_left (show readLE32 bs 0x24 * 8 + 8 * i + 4 ≤ new_index.length by omega)]
    exact hei.1
  · have he4 : FileHeadLen + (readLE32 bs 0x24 * 8 + 8 * i) + 4 =
        FileHeadLen + (readLE32 bs 0x24 * 8 + 8 * i + 4) := by omega
    rw [he4, readLE32_skip_list FileHeadLen _ _ (packHeader_length hm hp2 hd2),
      List.append_assoc, List.append_assoc,
      readLE32_append_left
        (show readLE32 bs 0x24 * 8 + 8 * i + 4 + 4 ≤ new_index.length by omega)]
    rw [hei.2, getD_map_length _ _ (by simpa using hiss)]
    congr 1
    rw [List.getD_eq_getElem?_getD, List.getD_eq_getElem?_getD, List.getElem?_map,
      List.getElem?_eq_getElem hiss]
    rfl

/-- Witness for C3 at the concrete scenario container: entry 1 of the rebuilt
index starts at the encoded length of string 0 and records string 1's encoded
length. -/
theorem c3_index_recompute_witness :
    readLE32 scenarioOut (FileHeadLen + (readLE32 cexScenario 0x24 * 8 + 8 * 1)) =
      sumTo ((scenarioStrings.map encStr).map List.length) 1 ∧
    readLE32 scenarioOut (FileHeadLen + (readLE32 cexScenario 0x24 * 8 + 8 * 1) + 4) =
      (encStr (scenarioStrings.getD 1 [])).length :=
  c3_index_recompute cexScenario scenarioLines scenarioOut scenarioDict scenarioStrings 1
    (by decide) (by decide) (by decide)

theorem packHeader_read_0x10 {m pad2 desc : List Nat}
    {f0 f1 f2 f3 f4 f5 f6 f7 f8 f9 f10 f11 f12 : Nat} (hm : m.length = 16) (h : f0 < 2 ^ 32) :
    readLE32 (packHeader m f0 f1 f2 f3 f4 f5 f6 f7 f8 f9 f10 f11 f12 pad2 desc) 0x10 = f0 := by
  have e : (0x10 : Nat) = 16 + 0 := by norm_num
  simp only [packHeader, List.append_assoc]
  rw [e, readLE32_skip_list 16 _ _ hm]
  exact readLE32_le32_cons _ _ h

theorem packHeader_read_0x14 {m pad2 desc : List Nat}
    {f0 f1 f2 f3 f4 f5 f6 f7 f8 f9 f10 f11 f12 : Nat} (hm : m.length = 16) (h : f1 < 2 ^ 32) :
    readLE32 (packHeader m f0 f1 f2 f3 f4 f5 f6 f7 f8 f9 f10 f11 f12 pad2 desc) 0x14 = f1 := by
  have e : (0x14 : Nat) = 16 + (4 + 0) := by norm_num
  simp only [packHeader, List.append_assoc]
  rw [e, readLE32_skip_list 16 _ _ hm]
  simp only [readLE32_skip]
  exact readLE32_le32_cons _ _ h

theorem packHeader_read_0x1C {m pad2 desc : List Nat}
    {f0 f1 f2 f3 f4 f5 f6 f7 f8 f9 f10 f11 f12 : Nat} (hm : m.length = 16) (h : f3 < 2 ^ 32) :
    readLE32 (packHeader m f0 f1 f2 f3 f4 f5 f6 f7 f8 f9 f10 f11 f12 pad2 desc) 0x1C = f3 := by
  have e : (0x1C : Nat) = 16 + (4 + (4 + (4 + 0))) := by norm_num
  simp only [packHeader, List.append_assoc]
  rw [e, readLE32_skip_list 16 _ _ hm]
  simp only [readLE32_skip]
  exact readLE32_le32_cons _ _ h

theorem packHeader_read_0x20 {m pad2 desc : List Nat}
    {f0 f1 f2 f3 f4 f5 f6 f7 f8 f9 f10 f11 f12 : Nat} (hm : m.length = 16) (h : f4 < 2 ^ 32) :
    readLE32 (packHeader m f0 f1 f2 f3 f4 f5 f6 f7 f8 f9 f10 f11 f12 pad2 desc) 0x20 = f4 := by
  have e : (0x20 : Nat) = 16 + (4 + (4 + (4 + (4 + 0)))) := by norm_num
  simp only [packHeader, List.append_assoc]
  rw [e, readLE32_skip_list 16 _ _ hm]
  simp only [readLE32_skip]
  exact readLE32_le32_cons _ _ h

theorem packHeader_read_0x38 {m pad2 desc : List Nat}
    {f0 f1 f2 f3 f4 f5 f6 f7 f8 f9 f10 f11 f12 : Nat} (hm : m.length = 16) (h : f10 < 2 ^ 32) :
    readLE32 (packHeader m f0 f1 f2 f3 f4 f5 f6 f7 f8 f9 f10 f11 f12 pad2 desc) 0x38 = f10 := by
  have e : (0x38 : Nat) =
      16 + (4 + (4 + (4 + (4 + (4 + (4 + (4 + (4 + (4 + (4 + 0)))))))))) := by norm_num
  simp only [packHeader, List.append_assoc]
  rw [e, readLE32_skip_list 16 _ _ hm]
  simp only [readLE32_skip]
  exact readLE32_le32_cons _ _ h

theorem packHeader_read_0x3C {m pad2 desc : List Nat}
    {f0 f1 f2 f3 f4 f5 f6 f7 f8 f9 f10 f11 f12 : Nat} (hm : m.length = 16) (h : f11 < 2 ^ 32) :
    readLE32 (packHeader m f0 f1 f2 f3 f4 f5 f6 f7 f8 f9 f10 f11 f12 pad2 desc) 0x3C = f11 := by
  have e : (0x3C : Nat) =
      16 + (4 + (4 + (4 + (4 + (4 + (4 + (4 + (4 + (4 + (4 + (4 + 0))))))))))) := by norm_num
  simp only [packHeader, List.append_assoc]
  rw [e, readLE32_skip_list 16 _ _ hm]
  simp only [readLE32_skip]
  exact readLE32_le32_cons _ _ h

/-- The pad2 block sits at offset 0x44 of a packed header. -/
theorem packHeader_pad2 {m pad2 desc : List Nat}
    {f0 f1 f2 f3 f4 f5 f6 f7 f8 f9 f10 f11 f12 : Nat}
    (hm : m.length = 16) (hpl : pad2.length = Pad2Len) :
    readAt (packHeader m f0 f1 f2 f3 f4 f5 f6 f7 f8 f9 f10 f11 f12 pad2 desc) 0x44 Pad2Len =
      pad2 := by
  have hP : (m ++ le32 f0 ++ le32 f1 ++ le32 f2 ++ le32 f3 ++ le32 f4 ++ le32 f5 ++
      le32 f6 ++ le32 f7 ++ le32 f8 ++ le32 f9 ++ le32 f10 ++ le32 f11 ++
      le32 f12).length = 0x44 := by
    simp [le32_length, hm]
  show readAt ((m ++ le32 f0 ++ le32 f1 ++ le32 f2 ++ le32 f3 ++ le32 f4 ++ le32 f5 ++
      le32 f6 ++ le32 f7 ++ le32 f8 ++ le32 f9 ++ le32 f10 ++ le32 f11 ++ le32 f12 ++
      pad2) ++ desc) 0x44 Pad2Len = pad2
  rw [readAt_append_inner _ _ _ _ (by simp [le32_length, hm, hpl, Pad2Len])]
  have h68 := readAt_append_right_pos (m ++ le32 f0 ++ le32 f1 ++ le32 f2 ++ le32 f3 ++
    le32 f4 ++ le32 f5 ++ le32 f6 ++ le32 f7 ++ le32 f8 ++ le32 f9 ++ le32 f10 ++
    le32 f11 ++ le32 f12) pad2 0 Pad2Len
  rw [hP] at h68
  simp only [Nat.add_zero] at h68
  rw [h68]
  unfold readAt
  rw [List.drop_zero, ← hpl, List.take_length]

/-- The description block sits at offset 0xC4 of a packed header. -/
theorem packHeader_desc {m pad2 desc : List Nat}
    {f0 f1 f2 f3 f4 f5 f6 f7 f8 f9 f10 f11 f12 : Nat}
    (hm : m.length = 16) (hpl : pad2.length = Pad2Len) (hdl : desc.length = 0x100) :
    readAt (packHeader m f0 f1 f2 f3 f4 f5 f6 f7 f8 f9 f10 f11 f12 pad2 desc) 0xC4 0x100 =
      desc := by
  have hP : (m ++ le32 f0 ++ le32 f1 ++ le32 f2 ++ le32 f3 ++ le32 f4 ++ le32 f5 ++
      le32 f6 ++ le32 f7 ++ le32 f8 ++ le32 f9 ++ le32 f10 ++ le32 f11 ++ le32 f12 ++
      pad2).length = 0xC4 := by
    simp [le32_length, hm, hpl, Pad2Len]
  have hC := readAt_append_right_pos (m ++ le32 f0 ++ le32 f1 ++ le32 f2 ++ le32 f3 ++
    le32 f4 ++ le32 f5 ++ le32 f6 ++ le32 f7 ++ le32 f8 ++ le32 f9 ++ le32 f10 ++
    le32 f11 ++ le32 f12 ++ pad2) desc 0 0x100
  rw [hP] at hC
  simp only [Nat.add_zero] at hC
  show readAt ((m ++ le32 f0 ++ le32 f1 ++ le32 f2 ++ le32 f3 ++ le32 f4 ++ le32 f5 ++
      le32 f6 ++ le32 f7 ++ le32 f8 ++ le32 f9 ++ le32 f10 ++ le32 f11 ++ le32 f12 ++
      pad2) ++ desc) 0xC4 0x100 = desc
  rw [hC]
  unfold readAt
  rw [List.drop_zero, ← hdl, List.take_length]

/-- Reading inside a slice reads the underlying list at the shifted position. -/
theorem readAt_readAt (bs : List Nat) (base cl p L : Nat) (h : p + L ≤ cl) :
    readAt (readAt bs base cl) p L = readAt bs (base + p) L := by
  unfold readAt
  rw [List.drop_take, List.take_take, min_eq_left (by omega), List.drop_drop]

theorem readAt_append_right_list {A : List Nat} (n : Nat) (B : List Nat) (k L : Nat)
    (hA : A.length = n) : readAt (A ++ B) (n + k) L = readAt B k L := by
  subst hA; exact readAt_append_right_pos A B k L

theorem getD_skip_list {a : List Nat} (n : Nat) (b : List Nat) (i d : Nat)
    (ha : a.length = n) : (a ++ b).getD (n + i) d = b.getD i d := by
  subst ha; exact getD_append_right a b i d

theorem getD_take (l : List Nat) (n q d : Nat) (hq : q < n) :
    (l.take n).getD q d = l.getD q d := by
  rw [List.getD_eq_getElem?_getD, List.getD_eq_getElem?_getD, List.getElem?_take]
  rw [if_pos hq]

theorem getD_drop (l : List Nat) (m q d : Nat) :
    (l.drop m).getD q d = l.getD (m + q) d := by
  rw [List.getD_eq_getElem?_getD, List.getD_eq_getElem?_getD, List.getElem?_drop]

/-- Under `RegionComplete`, the index region is the absolute slice right after
the header. -/
theorem indexRegionOf_eq_readAt (bs : List Nat) (hrc : RegionComplete bs) :
    indexRegionOf bs = readAt bs FileHeadLen (indexSizeOf bs) := by
  obtain ⟨h1, h2⟩ := hrc
  show readAt (readAt bs FileHeadLen (readLE32 bs 0x18)) 0 (indexSizeOf bs) =
    readAt bs FileHeadLen (indexSizeOf bs)
  rw [readAt_readAt bs FileHeadLen (readLE32 bs 0x18) 0 (indexSizeOf bs) (by omega)]
  rw [Nat.add_zero]

/-- Under `RegionComplete`, the command region is the absolute slice right
after the index table. -/
theorem cmdRegionOf_eq_readAt (bs : List Nat) (hrc : RegionComplete bs) :
    cmdRegionOf bs = readAt bs (FileHeadLen + indexSizeOf bs) (readLE32 bs 0x30) := by
  obtain ⟨h1, h2⟩ := hrc
  have he : cmdRegionOf bs =
      readAt (readAt bs FileHeadLen (readLE32 bs 0x18)) (indexSizeOf bs)
        (readLE32 bs 0x30) := by
    simp only [cmdRegionOf, splitRegions]
    unfold readAt
    rw [List.drop_take]
    congr 1
    omega
  rw [he, readAt_readAt bs FileHeadLen (readLE32 bs 0x18) (indexSizeOf bs)
    (readLE32 bs 0x30) (by omega)]

/-- Under `RegionComplete`, the addon region is the absolute slice after the
original string region. -/
theorem addonRegionOf_eq_readAt (bs : List Nat) (hrc : RegionComplete bs) :
    addonRegionOf bs = readAt bs
      (FileHeadLen + (indexSizeOf bs + readLE32 bs 0x30 + readLE32 bs 0x34))
      (readLE32 bs 0x38) := by
  obtain ⟨h1, h2⟩ := hrc
  have he : addonRegionOf bs =
      readAt (readAt bs FileHeadLen (readLE32 bs 0x18))
        (indexSizeOf bs + readLE32 bs 0x30 + readLE32 bs 0x34) (readLE32 bs 0x38) := by
    simp only [addonRegionOf, splitRegions]
    unfold readAt
    rw [List.drop_take]
    congr 1
    omega
  rw [he, readAt_readAt bs FileHeadLen (readLE32 bs 0x18)
    (indexSizeOf bs + readLE32 bs 0x30 + readLE32 bs 0x34) (readLE32 bs 0x38) (by omega)]

/-- Claim C2: a successful rebuild preserves everything except the string
region and the header fields that describe it.  The magic, all header fields
other than `contentLength` (0x18) and `stringSize` (0x34), the pad and
description blocks, the command region, the addon region, and the
command/addon index entries are copied byte-for-byte from the original;
`contentLength` becomes the new content-region length and `stringSize` the
new string-region length. -/
theorem c2_frame (bs : List Nat) (lines : List (List Char)) (out : List Nat)
    (d : Dict) (ss : List (List Char))
    (h : process_scw bs lines = some out)
    (hp : parse_txt lines = some (d, ss))
    (hrc : RegionComplete bs) :
    out.take 16 = bs.take 16 ∧
    readLE32 out 0x10 = readLE32 bs 0x10 ∧
    readLE32 out 0x14 = readLE32 bs 0x14 ∧
    readLE32 out 0x1C = readLE32 bs 0x1C ∧
    readLE32 out 0x20 = readLE32 bs 0x20 ∧
    readLE32 out 0x24 = readLE32 bs 0x24 ∧
    readLE32 out 0x28 = readLE32 bs 0x28 ∧
    readLE32 out 0x2C = readLE32 bs 0x2C ∧
    readLE32 out 0x30 = readLE32 bs 0x30 ∧
    readLE32 out 0x38 = readLE32 bs 0x38 ∧
    readLE32 out 0x3C = readLE32 bs 0x3C ∧
    readLE32 out 0x40 = readLE32 bs 0x40 ∧
    readAt out 0x44 Pad2Len = readAt bs 0x44 Pad2Len ∧
    readAt out 0xC4 0x100 = readAt bs 0xC4 0x100 ∧
    readLE32 out 0x18 =
      indexSizeOf bs + readLE32 bs 0x30 + ((ss.map encStr).flatten).length +
        readLE32 bs 0x38 ∧
    readLE32 out 0x34 = ((ss.map encStr).flatten).length ∧
    readAt out (FileHeadLen + indexSizeOf bs) (readLE32 bs 0x30) =
      readAt bs (FileHeadLen + indexSizeOf bs) (readLE32 bs 0x30) ∧
    readAt out (FileHeadLen + (indexSizeOf bs + readLE32 bs 0x30 +
        ((ss.map encStr).flatten).length)) (readLE32 bs 0x38) =
      readAt bs (FileHeadLen + (indexSizeOf bs + readLE32 bs 0x30 + readLE32 bs 0x34))
        (readLE32 bs 0x38) ∧
    (∀ q, q < readLE32 bs 0x24 * 8 ∨
        (readLE32 bs 0x24 * 8 + 8 * readLE32 bs 0x28 ≤ q ∧ q < indexSizeOf bs) →
      out.getD (FileHeadLen + q) 0 = bs.getD (FileHeadLen + q) 0) := by
  obtain ⟨d', ss', new_index, hp', hdne, hssne, hscd, htcd, hpatch, hlen452, hfit1, hfit2,
    hout⟩ := process_scw_some_inv bs lines out h
  have hps : (some (d', ss') : Option (Dict × List (List Char))) = some (d, ss) :=
    hp'.symm.trans hp
  injection hps with hpe
  injection hpe with h1 h2
  subst h1
  subst h2
  have hi_len : new_index.length = indexSizeOf bs := by
    have hl := (patchIndexGo_spec _ _ _ _ _ _ _ hpatch).1
    rw [hl, indexRegionOf_length bs hrc]
  have hcmd_len : (cmdRegionOf bs).length = readLE32 bs 0x30 := cmdRegionOf_length bs hrc
  have haddon_len : (addonRegionOf bs).length = readLE32 bs 0x38 :=
    addonRegionOf_length bs hrc
  have hbl : 452 ≤ bs.length := by
    have he : FileHeadLen = 452 := rfl
    omega
  have hm : (bs.take 16).length = 16 := by
    rw [List.length_take]; omega
  have hp2 : (readAt bs 0x44 Pad2Len).length = Pad2Len := by
    have he : Pad2Len = 128 := rfl
    simp only [readAt, List.length_take, List.length_drop]
    omega
  have hd2 : (readAt bs 0xC4 0x100).length = 0x100 := by
    simp only [readAt, List.length_take, List.length_drop]
    omega
  subst hout
  set PH := packHeader (bs.take 16) (readLE32 bs 0x10) (readLE32 bs 0x14)
      (new_index ++ cmdRegionOf bs ++ (ss'.map encStr).flatten ++
        addonRegionOf bs).length
      (readLE32 bs 0x1C) (readLE32 bs 0x20) (readLE32 bs 0x24)
      (readLE32 bs 0x28) (readLE32 bs 0x2C) (readLE32 bs 0x30)
      ((ss'.map encStr).flatten).length (readLE32 bs 0x38)
      (readLE32 bs 0x3C) (readLE32 bs 0x40)
      (readAt bs 0x44 Pad2Len) (readAt bs 0xC4 0x100) with hPH
  have hlenPH : PH.length = FileHeadLen := by
    rw [hPH]; exact packHeader_length hm hp2 hd2
  refine ⟨?_, ?_, ?_, ?_, ?_, ?_, ?_, ?_, ?_, ?_, ?_, ?_, ?_, ?_, ?_, ?_, ?_, ?_, ?_⟩
  · rw [List.take_append_of_le_length (show 16 ≤ PH.length by rw [hlenPH]; decide), hPH]
    exact packHeader_take16 hm
  · rw [readLE32_append_left (show (0x10 : Nat) + 4 ≤ PH.length by rw [hlenPH]; decide),
      hPH]
    exact packHeader_read_0x10 hm (readLE32_lt bs 0x10)
  · rw [readLE32_append_left (show (0x14 : Nat) + 4 ≤ PH.length by rw [hlenPH]; decide),
      hPH]
    exact packHeader_read_0x14 hm (readLE32_lt bs 0x14)
  · rw [readLE32_append_left (show (0x1C : Nat) + 4 ≤ PH.length by rw [hlenPH]; decide),
      hPH]
    exact packHeader_read_0x1C hm (readLE32_lt bs 0x1C)
  · rw [readLE32_append_left (show (0x20 : Nat) + 4 ≤ PH.length by rw [hlenPH]; decide),
      hPH]
    exact packHeader_read_0x20 hm (readLE32_lt bs 0x20)
  · rw [readLE32_append_left (show (0x24 : Nat) + 4 ≤ PH.length by rw [hlenPH]; decide),
      hPH]
    exact packHeader_read_0x24 hm (readLE32_lt bs 0x24)
  · rw [readLE32_append_left (show (0x28 : Nat) + 4 ≤ PH.length by rw [hlenPH]; decide),
      hPH]
    exact packHeader_read_0x28 hm (readLE32_lt bs 0x28)
  · rw [readLE32_append_left (show (0x2C : Nat) + 4 ≤ PH.length by rw [hlenPH]; decide),
      hPH]
    exact packHeader_read_0x2C hm (readLE32_lt bs 0x2C)
  · rw [readLE32_append_left (show (0x30 : Nat) + 4 ≤ PH.length by rw [hlenPH]; decide),
      hPH]
    exact packHeader_read_0x30 hm (readLE32_lt bs 0x30)
  · rw [readLE32_append_left (show (0x38 : Nat) + 4 ≤ PH.length by rw [hlenPH]; decide),
      hPH]
    exact packHeader_read_0x38 hm (readLE32_lt bs 0x38)
  · rw [readLE32_append_left (show (0x3C : Nat) + 4 ≤ PH.length by rw [hlenPH]; decide),
      hPH]
    exact packHeader_read_0x3C hm (readLE32_lt bs 0x3C)
  · rw [readLE32_append_left (show (0x40 : Nat) + 4 ≤ PH.length by rw [hlenPH]; decide),
      hPH]
    exact packHeader_read_0x40 hm (readLE32_lt bs 0x40)
  · rw [readAt_append_inner PH _ 0x44 Pad2Len (by rw [hlenPH]; decide), hPH]
    exact packHeader_pad2 hm hp2
  · rw [readAt_append_inner PH _ 0xC4 0x100 (by rw [hlenPH]; decide), hPH]
    exact packHeader_desc hm hp2 hd2
  · rw [readLE32_append_left (show (0x18 : Nat) + 4 ≤ PH.length by rw [hlenPH]; decide),
      hPH, packHeader_read_0x18 hm (by omega)]
    simp only [List.length_append, hi_len, hcmd_len, haddon_len]
  · rw [readLE32_append_left (show (0x34 : Nat) + 4 ≤ PH.length by rw [hlenPH]; decide),
      hPH, packHeader_read_0x34 hm (by omega)]
  · rw [readAt_append_right_list FileHeadLen _ (indexSizeOf bs) (readLE32 bs 0x30) hlenPH]
    rw [readAt_append_inner _ _ _ _
      (show indexSizeOf bs + readLE32 bs 0x30 ≤
        (new_index ++ cmdRegionOf bs ++ (ss'.map encStr).flatten).length by
          simp only [List.length_append, hi_len, hcmd_len]; omega)]
    rw [readAt_append_inner _ _ _ _
      (show indexSizeOf bs + readLE32 bs 0x30 ≤ (new_index ++ cmdRegionOf bs).length by
        simp only [List.length_append, hi_len, hcmd_len]; omega)]
    have h0 := readAt_append_right_pos new_index (cmdRegionOf bs) 0 (readLE32 bs 0x30)
    rw [hi_len] at h0
    simp only [Nat.add_zero] at h0
    rw [h0]
    unfold readAt
    rw [List.drop_zero, List.take_of_length_le (le_of_eq hcmd_len)]
    exact cmdRegionOf_eq_readAt bs hrc
  · rw [readAt_append_right_list FileHeadLen _
      (indexSizeOf bs + readLE32 bs 0x30 + ((ss'.map encStr).flatten).length)
      (readLE32 bs 0x38) hlenPH]
    have hAlen : (new_index ++ cmdRegionOf bs ++ (ss'.map encStr).flatten).length =
        indexSizeOf bs + readLE32 bs 0x30 + ((ss'.map encStr).flatten).length := by
      simp only [List.length_append, hi_len, hcmd_len]
    have h4 := readAt_append_right_pos
      (new_index ++ cmdRegionOf bs ++ (ss'.map encStr).flatten) (addonRegionOf bs) 0
      (readLE32 bs 0x38)
    rw [hAlen] at h4
    simp only [Nat.add_zero] at h4
    rw [h4]
    unfold readAt
    rw [List.drop_zero, List.take_of_length_le (le_of_eq haddon_len)]
    exact addonRegionOf_eq_readAt bs hrc
  · intro q hq
    have hiS : indexSizeOf bs = (readLE32 bs 0x24 + readLE32 bs 0x28 + readLE32 bs 0x2C) *
        8 := rfl
    have hql : q < indexSizeOf bs := by
      rw [hiS]; rcases hq with hl | hr
      · omega
      · rw [hiS] at hr; omega
    rw [getD_skip_list FileHeadLen _ _ _ hlenPH]
    rw [getD_append_left 0
      (show q < (new_index ++ cmdRegionOf bs ++ (ss'.map encStr).flatten).length by
        simp only [List.length_append, hi_len]; omega)]
    rw [getD_append_left 0 (show q < (new_index ++ cmdRegionOf bs).length by
      simp only [List.length_append, hi_len]; omega)]
    rw [getD_append_left 0 (show q < new_index.length by rw [hi_len]; exact hql)]
    obtain ⟨-, hunt, -⟩ := patchIndexGo_spec _ _ _ _ _ _ _ hpatch
    rw [hunt q (by omega)]
    rw [indexRegionOf_eq_readAt bs hrc]
    unfold readAt
    rw [getD_take _ _ _ _ hql, getD_drop]

/-- Witness for C2 at the concrete scenario container: the rebuilt container
keeps the original magic and string count. -/
theorem c2_frame_witness :
    scenarioOut.take 16 = cexScenario.take 16 ∧
    readLE32 scenarioOut 0x28 = readLE32 cexScenario 0x28 := by
  have h := c2_frame cexScenario scenarioLines scenarioOut scenarioDict scenarioStrings
    (by decide) (by decide) (by decide)
  exact ⟨h.1, h.2.2.2.2.2.2.1⟩

/-- A successful extraction reads the description from the header's
description block. -/
theorem extract_scw_file_desc (bs : List Nat) (doc : ExtractedDoc)
    (h : extract_scw_file bs = some doc) :
    doc.description =
      stripChars (decodeCp932Ignore ((readAt bs 0xC4 0x100).takeWhile (fun b => b ≠ 0))) := by
  simp only [extract_scw_file] at h
  by_cases h1 : rstripNul (bs.take 16) ≠ magicBytes
  · rw [if_pos h1] at h; exact Option.noConfusion h
  · rw [if_neg h1] at h
    by_cases h2 : readLE32 bs 0x40 = 0
    · rw [if_pos h2] at h; exact Option.noConfusion h
    · rw [if_neg h2] at h
      by_cases h3 : (readAt bs FileHeadLen
          ((readLE32 bs 0x24 + readLE32 bs 0x28 + readLE32 bs 0x2C) * 8)).length ≠
          (readLE32 bs 0x24 + readLE32 bs 0x28 + readLE32 bs 0x2C) * 8
      · rw [if_pos h3] at h; exact Option.noConfusion h
      · rw [if_neg h3] at h
        have hd := Option.some.inj h
        rw [← hd]

theorem readLE32_append_left_list {a : List Nat} (n : Nat) (b : List Nat) (i : Nat)
    (ha : a.length = n) (h : i + 4 ≤ n) : readLE32 (a ++ b) i = readLE32 a i := by
  subst ha; exact readLE32_append_left h

theorem take_append_list {a : List Nat} (n : Nat) (b : List Nat) (k : Nat)
    (ha : a.length = n) (h : k ≤ n) : (a ++ b).take k = a.take k := by
  subst ha; exact List.take_append_of_le_length h

theorem readAt_append_start {A : List Nat} (n : Nat) (B : List Nat) (L : Nat)
    (hA : A.length = n) : readAt (A ++ B) n L = readAt B 0 L := by
  have h := readAt_append_right_pos A B 0 L
  rw [hA, Nat.add_zero] at h
  exact h

set_option maxHeartbeats 2000000 in
/-- Claim C1 (amended): for a valid container — declared regions present,
rebuilt region sizes in `<i` range, a non-empty string table, a description
free of line terminators (LF and also bare CR, which universal-newlines
re-reading would turn into a forged header line), and string content the
text-document format can carry (`RoundSafeString`: ASCII without CR, no
trailing NUL, and no blank, padded or `[`-led lines, since blank lines are
section separators and are not preserved inside string content) — extraction
yields exactly `stringCount` strings, and one full decode → render → rebuild
→ decode round trip reproduces the same string sequence. -/
theorem c1_round_trip (bs : List Nat) (doc : ExtractedDoc)
    (hx : extract_scw_file bs = some doc)
    (hrc : RegionComplete bs)
    (hfits : RebuildFits bs doc.strings)
    (hne : doc.strings ≠ [])
    (hdescnl : '\n' ∉ doc.description)
    (hdesccr : '\r' ∉ doc.description)
    (hsafe : ∀ s ∈ doc.strings, RoundSafeString s) :
    doc.strings.length = doc.stringCount ∧
    roundTripStrings bs = some doc.strings := by
  obtain ⟨hmagic, htc0, hidxc, hscdoc, htcdoc, hstrs⟩ := extract_scw_file_some bs doc hx
  have hiS : indexSizeOf bs = (readLE32 bs 0x24 + readLE32 bs 0x28 + readLE32 bs 0x2C) *
      8 := rfl
  have hcount : doc.strings.length = readLE32 bs 0x28 := by
    rw [hstrs]
    exact extractStringsGo_length bs _ _ _ (readLE32 bs 0x28) 0 (by rw [hidxc]; omega)
  refine ⟨by rw [hcount, hscdoc], ?_⟩
  have hdescstrip : stripChars doc.description = doc.description := by
    rw [extract_scw_file_desc bs doc hx]
    exact stripChars_idem _
  obtain ⟨v, hparse⟩ := parse_renderDoc doc hdescnl hdescstrip
    (fun s hs => (hsafe s hs).2.2)
  set D := dictSet (dictSet (dictSet [] strCountKey (natToChars doc.stringCount))
    textCountKey (natToChars doc.textCount)) "FILE_DESCRIPTION".data v with hD
  have hDsc : declaredInt D strCountKey = some (doc.stringCount : Int) := by
    have hg := renderDict_strCount (natToChars doc.stringCount)
      (natToChars doc.textCount) v
    rw [hD]
    unfold declaredInt
    simp only [hg]
    exact parseInt_natToChars _
  have hDtc : declaredInt D textCountKey = some (doc.textCount : Int) := by
    have hg := renderDict_textCount (natToChars doc.stringCount)
      (natToChars doc.textCount) v
    rw [hD]
    unfold declaredInt
    simp only [hg]
    exact parseInt_natToChars _
  have hDne : D ≠ [] := by rw [hD]; exact dictSet_ne_nil _ _ _
  have hirl : (indexRegionOf bs).length = indexSizeOf bs := indexRegionOf_length bs hrc
  have hcmdlen : (cmdRegionOf bs).length = readLE32 bs 0x30 := cmdRegionOf_length bs hrc
  have haddonlen : (addonRegionOf bs).length = readLE32 bs 0x38 :=
    addonRegionOf_length bs hrc
  have hflat2 : ((doc.strings.map encStr).flatten).length = rebuiltStrLen doc.strings := by
    rw [List.length_flatten, List.map_map]
    rfl
  have hsum : ((doc.strings.map encStr).map List.length).sum =
      rebuiltStrLen doc.strings := by
    rw [List.map_map]
    rfl
  have hrf := hfits
  unfold RebuildFits at hrf
  have hex : ∃ o, process_scw bs (splitOnNL (renderDoc doc)) = some o := by
    obtain ⟨NI, hNI⟩ := patchIndexGo_succeeds ((doc.strings.map encStr).map List.length)
      (readLE32 bs 0x24 * 8) (readLE32 bs 0x28) 0 0 (indexRegionOf bs)
      (by rw [hirl, hiS]; omega)
      (by simp only [List.length_map]; omega)
      (by
        rw [List.drop_zero]
        have h1 := sumTo_le_sum ((doc.strings.map encStr).map List.length)
          (readLE32 bs 0x28)
        rw [hsum] at h1
        omega)
    have hNIlen : NI.length = indexSizeOf bs := by
      rw [(patchIndexGo_spec _ _ _ _ _ _ _ hNI).1, hirl]
    have htotlen : (NI ++ cmdRegionOf bs ++ (doc.strings.map encStr).flatten ++
        addonRegionOf bs).length =
        indexSizeOf bs + readLE32 bs 0x30 + rebuiltStrLen doc.strings +
          readLE32 bs 0x38 := by
      simp only [List.length_append, hNIlen, hcmdlen, hflat2, haddonlen]
    have hfit_neg : ¬ ((NI ++ cmdRegionOf bs ++ (doc.strings.map encStr).flatten ++
        addonRegionOf bs).length ≥ 2 ^ 31 ∨
        ((doc.strings.map encStr).flatten).length ≥ 2 ^ 31) := by
      push_neg
      refine ⟨?_, ?_⟩
      · rw [htotlen]; exact hfits
      · rw [hflat2]; omega
    unfold process_scw
    rw [if_neg (show ¬ bs.length < FileHeadLen by obtain ⟨h1, h2⟩ := hrc; omega)]
    simp only [hparse]
    rw [if_neg (show ¬ (D = [] ∨ doc.strings = []) from not_or.mpr ⟨hDne, hne⟩)]
    simp only [hDsc, hDtc]
    rw [if_neg (show ¬ ((doc.stringCount : Int) ≠ (readLE32 bs 0x28 : Nat) ∨
        (doc.textCount : Int) ≠ (readLE32 bs 0x40 : Nat)) by
      push_neg
      rw [hscdoc, htcdoc]
      exact ⟨rfl, rfl⟩)]
    simp only [hNI]
    rw [if_neg hfit_neg]
    exact ⟨_, rfl⟩
  obtain ⟨out, hproc⟩ := hex
  obtain ⟨d2, ss2, NIX, hp2, hd2ne, hss2ne, hscd2, htcd2, hpatch2, hl452, hfitA, hfitB,
    hout⟩ := process_scw_some_inv bs _ out hproc
  have hps : (some (d2, ss2) : Option (Dict × List (List Char))) =
      some (D, doc.strings) := hp2.symm.trans hparse
  have hse : ss2 = doc.strings := congrArg Prod.snd (Option.some.inj hps)
  rw [hse] at hpatch2 hout
  obtain ⟨hNlen0, hNunt, hNent⟩ := patchIndexGo_spec _ _ _ _ _ _ _ hpatch2
  have hNlen : NIX.length = indexSizeOf bs := by rw [hNlen0, hirl]
  have hbl : 452 ≤ bs.length := by
    obtain ⟨h1, h2⟩ := hrc
    have he : FileHeadLen = 452 := rfl
    omega
  have hmag16 : (bs.take 16).length = 16 := by
    rw [List.length_take]; omega
  have hpadlen : (readAt bs 0x44 Pad2Len).length = Pad2Len := by
    have he : Pad2Len = 128 := rfl
    simp only [readAt, List.length_take, List.length_drop]
    omega
  have hdesclen : (readAt bs 0xC4 0x100).length = 0x100 := by
    simp only [readAt, List.length_take, List.length_drop]
    omega
  have htake16 : out.take 16 = bs.take 16 := by
    rw [hout, take_append_list FileHeadLen _ 16
      (packHeader_length hmag16 hpadlen hdesclen) (by decide)]
    exact packHeader_take16 hmag16
  have hO24 : readLE32 out 0x24 = readLE32 bs 0x24 := by
    rw [hout, readLE32_append_left_list FileHeadLen _ 0x24
      (packHeader_length hmag16 hpadlen hdesclen) (by decide)]
    exact packHeader_read_0x24 hmag16 (readLE32_lt bs 0x24)
  have hO28 : readLE32 out 0x28 = readLE32 bs 0x28 := by
    rw [hout, readLE32_append_left_list FileHeadLen _ 0x28
      (packHeader_length hmag16 hpadlen hdesclen) (by decide)]
    exact packHeader_read_0x28 hmag16 (readLE32_lt bs 0x28)
  have hO2C : readLE32 out 0x2C = readLE32 bs 0x2C := by
    rw [hout, readLE32_append_left_list FileHeadLen _ 0x2C
      (packHeader_length hmag16 hpadlen hdesclen) (by decide)]
    exact packHeader_read_0x2C hmag16 (readLE32_lt bs 0x2C)
  have hO30 : readLE32 out 0x30 = readLE32 bs 0x30 := by
    rw [hout, readLE32_append_left_list FileHeadLen _ 0x30
      (packHeader_length hmag16 hpadlen hdesclen) (by decide)]
    exact packHeader_read_0x30 hmag16 (readLE32_lt bs 0x30)
  have hO40 : readLE32 out 0x40 = readLE32 bs 0x40 := by
    rw [hout, readLE32_append_left_list FileHeadLen _ 0x40
      (packHeader_length hmag16 hpadlen hdesclen) (by decide)]
    exact packHeader_read_0x40 hmag16 (readLE32_lt bs 0x40)
  have hOiS : indexSizeOf out = indexSizeOf bs := by
    unfold indexSizeOf
    rw [hO24, hO28, hO2C]
  have hIDX : readAt out FileHeadLen (indexSizeOf bs) = NIX := by
    rw [hout, readAt_append_start FileHeadLen _ (indexSizeOf bs)
      (packHeader_length hmag16 hpadlen hdesclen)]
    unfold readAt
    rw [List.drop_zero]
    rw [List.take_append_of_le_length (show indexSizeOf bs ≤
      (NIX ++ cmdRegionOf bs ++ (doc.strings.map encStr).flatten).length by
        simp only [List.length_append, hNlen]; omega)]
    rw [List.take_append_of_le_length (show indexSizeOf bs ≤
      (NIX ++ cmdRegionOf bs).length by simp only [List.length_append, hNlen]; omega)]
    rw [List.take_append_of_le_length hNlen.ge, List.take_of_length_le hNlen.le]
  have hidxout : (readAt out FileHeadLen (indexSizeOf out)).length = indexSizeOf out := by
    rw [hOiS, hIDX, hNlen]
  have hmagout : rstripNul (out.take 16) = magicBytes := by
    rw [htake16]; exact hmagic
  have htcout : readLE32 out 0x40 ≠ 0 := by rw [hO40]; exact htc0
  have hmk := extract_scw_file_mk out hmagout htcout hidxout
  have hstart2 : ∀ j, j < (doc.strings.map encStr).length →
      readLE32 NIX ((readLE32 bs 0x24 + j) * 8) =
        sumTo ((doc.strings.map encStr).map List.length) j := by
    intro j hj
    have hjsc : j < readLE32 bs 0x28 := by
      rw [List.length_map, hcount] at hj; exact hj
    have h6 := (hNent j hjsc).1
    simp only [Nat.zero_add, List.drop_zero] at h6
    have hpos : (readLE32 bs 0x24 + j) * 8 = readLE32 bs 0x24 * 8 + 8 * j := by ring
    rw [hpos]
    exact h6
  have hlen2 : ∀ j, j < (doc.strings.map encStr).length →
      readLE32 NIX ((readLE32 bs 0x24 + j) * 8 + 4) =
        ((doc.strings.map encStr).getD j []).length := by
    intro j hj
    have hjsc : j < readLE32 bs 0x28 := by
      rw [List.length_map, hcount] at hj; exact hj
    have h7 := (hNent j hjsc).2
    simp only [Nat.zero_add] at h7
    have hpos : (readLE32 bs 0x24 + j) * 8 + 4 = readLE32 bs 0x24 * 8 + 8 * j + 4 := by
      ring
    rw [hpos, h7]
    exact getD_map_length _ _ hj
  have hbytes2 : ∀ j, j < (doc.strings.map encStr).length →
      readAt out (FileHeadLen + indexSizeOf bs + readLE32 bs 0x30 +
          sumTo ((doc.strings.map encStr).map List.length) j)
        (((doc.strings.map encStr).getD j []).length) =
        (doc.strings.map encStr).getD j [] := by
    intro j hj
    have hjlen : sumTo ((doc.strings.map encStr).map List.length) j +
        ((doc.strings.map encStr).getD j []).length ≤
        ((doc.strings.map encStr).flatten).length := by
      have h8 := sumTo_add_getD_le ((doc.strings.map encStr).map List.length) j
        (by rw [List.length_map]; exact hj)
      rw [getD_map_length _ _ hj] at h8
      rw [List.length_flatten]
      exact h8
    have he : FileHeadLen + indexSizeOf bs + readLE32 bs 0x30 +
        sumTo ((doc.strings.map encStr).map List.length) j =
        FileHeadLen + (indexSizeOf bs + readLE32 bs 0x30 +
          sumTo ((doc.strings.map encStr).map List.length) j) := by omega
    rw [hout, he, readAt_append_right_list FileHeadLen _ _ _
      (packHeader_length hmag16 hpadlen hdesclen)]
    rw [readAt_append_inner _ _ _ _ (show
      indexSizeOf bs + readLE32 bs 0x30 +
        sumTo ((doc.strings.map encStr).map List.length) j +
        ((doc.strings.map encStr).getD j []).length ≤
      (NIX ++ cmdRegionOf bs ++ (doc.strings.map encStr).flatten).length by
        simp only [List.length_append, hNlen, hcmdlen]; omega)]
    rw [readAt_append_right_list (indexSizeOf bs + readLE32 bs 0x30) _ _ _
      (show (NIX ++ cmdRegionOf bs).length = indexSizeOf bs + readLE32 bs 0x30 by
        simp only [List.length_append, hNlen, hcmdlen])]
    exact flatten_slice (doc.strings.map encStr) j
  have hidxlen2 : (readLE32 bs 0x24 + (doc.strings.map encStr).length) * 8 ≤
      NIX.length := by
    rw [hNlen, hiS]
    simp only [List.length_map, hcount]
    omega
  have hloop : extractStringsGo out (readAt out FileHeadLen (indexSizeOf out))
      (readLE32 out 0x24) (FileHeadLen + indexSizeOf out + readLE32 out 0x30) 0
      (readLE32 out 0x28) = doc.strings := by
    rw [hOiS, hIDX, hO24, hO28, hO30]
    rw [extractStringsGo_map out NIX (readLE32 bs 0x24)
      (FileHeadLen + indexSizeOf bs + readLE32 bs 0x30) (doc.strings.map encStr)
      hstart2 hlen2 hbytes2 hidxlen2 (readLE32 bs 0x28) 0 (by simp [hcount])]
    rw [List.drop_zero, List.take_of_length_le (by simp [hcount])]
    rw [List.map_map]
    rw [List.map_congr_left (show ∀ s ∈ doc.strings,
        (decodeStringData ∘ encStr) s = id s from fun s hs =>
      decode_encStr s (fun c hc => ((hsafe s hs).1 c hc).1) ((hsafe s hs).2.1))]
    exact List.map_id _
  rw [hloop] at hmk
  unfold roundTripStrings
  simp only [hx, optionBind_some, hproc, hmk]
  rfl

/-- Counterexample for C1 as stated unconditionally: the valid container
`cexBlankLine` holds the single string content with an embedded blank line;
extraction yields it intact, but one full round trip returns the string with
the blank line removed — the parser treats the blank line as a separator, so
round-tripping is not a fixed point for every valid container. -/
theorem c1_counterexample :
    (extract_scw_file cexBlankLine).map ExtractedDoc.strings = some ["a\n\nb".data] ∧
    roundTripStrings cexBlankLine = some ["a\nb".data] :=
  ⟨by decide, by decide⟩

/-- Witness for C1 at the concrete scenario container: the hypotheses hold
there and the round trip reproduces both strings. -/
theorem c1_round_trip_witness :
    scenarioDoc.strings.length = scenarioDoc.stringCount ∧
    roundTripStrings cexScenario = some scenarioDoc.strings :=
  c1_round_trip cexScenario scenarioDoc (by decide) (by decide) (by decide) (by decide)
    (by decide) (by decide) (by decide)
